import Mathlib

/-!
A shallow embedding in Lean 4 of the knowledge/RAG engine of the Shannon
repository (`rust/shannon-api/src/knowledge/`): the hybrid vector store
(`vector_store.rs`), the RAG orchestration layer (`rag.rs`) and the four
chunking strategies (`chunking/fixed_size.rs`, `chunking/semantic.rs`,
`chunking/hierarchical.rs`, `chunking/structure_aware.rs`), together with
theorems settling the specification claims about them.

Modelling conventions, used throughout:

* Rust `usize` arithmetic is modelled by `Nat` (all the quantities involved
  are non-negative and no wrapping arithmetic occurs in the modelled code).
* ANN cosine distances and similarity scores (`f32` in the source) are
  modelled by `ℚ`; the source performs no float arithmetic on them beyond
  `1.0 - distance` and comparisons, which `ℚ` reflects exactly.
* `Uuid::new_v4()` chunk ids are modelled by a deterministic fresh counter
  (the only property the code relies on is freshness/distinctness).
* The tokenizer (`Arc<dyn Tokenizer>`) is an explicit parameter: a `count`,
  `encode` and/or `decode` function, exactly the trait surface each chunker
  uses.  Text is modelled as `List Char` in the chunkers (where splitting is
  structural) and as `String` in the store/RAG layer.
* The ANN index internals (USearch/HNSW) are out of scope per the spec; the
  reply of `index.search` (keys with ascending cosine distances, at most
  `limit` of them) is an explicit parameter constrained by hypotheses that
  restate the index's documented query contract.
-/

namespace Shannon

/-! ## Vector store (`vector_store.rs`) -/

/-- A chunk as handled by `VectorStore` (`vector_store.rs`): exactly the
fields that participate in `add_chunks_batch` and `search`. -/
structure StoredChunk where
  id : Nat
  knowledgeBaseId : String
  content : String
  tokens : Nat
  position : Nat
  parentChunkId : Option Nat
  embedding : List ℚ
deriving DecidableEq, Repr

/-- The hybrid store state: the committed relational rows (the SQLite
`chunks` table) and the ANN index contents (`position` key paired with the
inserted embedding).  The ANN index has no transactions: an `index.add`
that happened is never rolled back. -/
structure StoreState where
  rows : List StoredChunk
  ann : List (Nat × List ℚ)
deriving DecidableEq, Repr

/-- The embedding vectors the batch inserts into the ANN index, in order:
one `(position, embedding)` entry per chunk with a non-empty embedding
(`add_chunks_batch` skips chunks with `chunk.embedding.is_empty()`). -/
def annInserts (chunks : List StoredChunk) : List (Nat × List ℚ) :=
  (chunks.filter (fun c => !c.embedding.isEmpty)).map (fun c => (c.position, c.embedding))

/-- One relational `INSERT` of `add_chunks_batch`: with the schema's
`id TEXT PRIMARY KEY`, the insert fails exactly on a primary-key conflict,
i.e. when the chunk id is already present among the committed rows or the
rows pending in the open transaction. -/
def sqlInsertFails (committed pending : List StoredChunk) (c : StoredChunk) : Bool :=
  (committed ++ pending).any (fun r => decide (r.id = c.id))

/-- The loop of `VectorStore::add_chunks_batch` (vector_store.rs:133-167).
For each chunk: relational `INSERT` inside the open transaction (`pending`),
then — for a non-empty embedding — the USearch `index.add` keyed by
`position`.  `annFails` is the environment's oracle for `index.add`
failures.  On any failure the function returns with `?`, dropping the open
transaction: committed rows are unchanged while ANN inserts already
performed persist.  After the loop `tx.commit()` publishes all pending
rows. -/
def addChunksBatchGo (annFails : StoredChunk → Bool) (committed : List StoredChunk) :
    List StoredChunk → List (Nat × List ℚ) → List StoredChunk →
    Except StoreState StoreState
  | pending, ann, [] => .ok ⟨committed ++ pending, ann⟩
  | pending, ann, c :: rest =>
    if sqlInsertFails committed pending c then .error ⟨committed, ann⟩
    else if c.embedding.isEmpty then
      addChunksBatchGo annFails committed (pending ++ [c]) ann rest
    else if annFails c then .error ⟨committed, ann⟩
    else
      addChunksBatchGo annFails committed (pending ++ [c])
        (ann ++ [(c.position, c.embedding)]) rest

/-- `VectorStore::add_chunks_batch`: run the insert loop starting from an
empty pending set inside a fresh transaction. -/
def addChunksBatch (annFails : StoredChunk → Bool) (st : StoreState)
    (chunks : List StoredChunk) : Except StoreState StoreState :=
  addChunksBatchGo annFails st.rows [] st.ann chunks

lemma annInserts_nil : annInserts [] = [] := rfl

lemma annInserts_cons_empty {c : StoredChunk} (h : c.embedding.isEmpty)
    (rest : List StoredChunk) : annInserts (c :: rest) = annInserts rest := by
  simp [annInserts, h]

lemma annInserts_cons_nonempty {c : StoredChunk} (h : ¬ c.embedding.isEmpty)
    (rest : List StoredChunk) :
    annInserts (c :: rest) = (c.position, c.embedding) :: annInserts rest := by
  simp [annInserts, h]

/-- Main invariant of the batch-insert loop: an error leaves the committed
rows untouched and the ANN index extended by the inserts of some prefix of
the remaining batch; success commits every pending and remaining row and
performs every ANN insert of the remaining batch. -/
lemma addChunksBatchGo_spec (annFails : StoredChunk → Bool)
    (committed : List StoredChunk) :
    ∀ (chunks pending : List StoredChunk) (ann : List (Nat × List ℚ)),
      (∀ e, addChunksBatchGo annFails committed pending ann chunks = .error e →
        e.rows = committed ∧
        ∃ pre suf, chunks = pre ++ suf ∧ e.ann = ann ++ annInserts pre) ∧
      (∀ o, addChunksBatchGo annFails committed pending ann chunks = .ok o →
        o.rows = committed ++ pending ++ chunks ∧
        o.ann = ann ++ annInserts chunks) := by
  intro chunks
  induction chunks with
  | nil =>
    intro pending ann
    constructor
    · intro e he
      simp [addChunksBatchGo] at he
    · intro o ho
      simp [addChunksBatchGo] at ho
      simp [← ho, annInserts]
  | cons c rest ih =>
    intro pending ann
    constructor
    · intro e he
      by_cases hsql : sqlInsertFails committed pending c
      · simp [addChunksBatchGo, hsql] at he
        refine ⟨by simp [← he], [], c :: rest, by simp, by simp [← he, annInserts]⟩
      · by_cases hemb : c.embedding.isEmpty
        · simp [addChunksBatchGo, hsql, hemb] at he
          obtain ⟨hrows, pre, suf, hsplit, hann⟩ := (ih (pending ++ [c]) ann).1 e he
          exact ⟨hrows, c :: pre, suf, by simp [hsplit],
            by rw [hann, annInserts_cons_empty hemb]⟩
        · by_cases hfail : annFails c
          · simp [addChunksBatchGo, hsql, hemb, hfail] at he
            refine ⟨by simp [← he], [], c :: rest, by simp, by simp [← he, annInserts]⟩
          · simp [addChunksBatchGo, hsql, hemb, hfail] at he
            obtain ⟨hrows, pre, suf, hsplit, hann⟩ :=
              (ih (pending ++ [c]) (ann ++ [(c.position, c.embedding)])).1 e he
            exact ⟨hrows, c :: pre, suf, by simp [hsplit],
              by rw [hann, annInserts_cons_nonempty hemb]; simp⟩
    · intro o ho
      by_cases hsql : sqlInsertFails committed pending c
      · simp [addChunksBatchGo, hsql] at ho
      · by_cases hemb : c.embedding.isEmpty
        · simp [addChunksBatchGo, hsql, hemb] at ho
          obtain ⟨hrows, hann⟩ := (ih (pending ++ [c]) ann).2 o ho
          refine ⟨by simp [hrows], by rw [hann, annInserts_cons_empty hemb]⟩
        · by_cases hfail : annFails c
          · simp [addChunksBatchGo, hsql, hemb, hfail] at ho
          · simp [addChunksBatchGo, hsql, hemb, hfail] at ho
            obtain ⟨hrows, hann⟩ :=
              (ih (pending ++ [c]) (ann ++ [(c.position, c.embedding)])).2 o ho
            refine ⟨by simp [hrows], by rw [hann, annInserts_cons_nonempty hemb]; simp⟩

/-- Concrete batch for the C1 analysis: two chunks with non-empty embeddings. -/
def c1ChunkA : StoredChunk := ⟨1, "kb1", "alpha", 1, 0, none, [1]⟩

/-- Second chunk of the concrete C1 batch; its ANN insert is made to fail. -/
def c1ChunkB : StoredChunk := ⟨2, "kb1", "beta", 1, 1, none, [1]⟩

/-- C1, counterexample.  The claim asserts that an ANN-insert failure "can
occur after some relational rows have already been committed".  In
`add_chunks_batch` the transaction commits only after the loop, i.e. after
every ANN insert; here the ANN insert of the second chunk fails and the run
ends with NO relational row of the batch committed, while the ANN index
already holds the first chunk's vector — the divergence runs in the
opposite direction from the one claimed. -/
theorem addChunksBatch_ann_failure_commits_nothing :
    addChunksBatch (fun c => decide (c.id = 2)) ⟨[], []⟩ [c1ChunkA, c1ChunkB]
      = .error ⟨[], [(0, [1])]⟩ := by
  rfl

/-- C1 (amended): `add_chunks_batch` interleaves the relational `INSERT`s
(inside one transaction) with the ANN inserts and commits the transaction
only after the whole loop.  On any failure — relational or ANN — no
relational row of the batch is committed (the transaction is dropped), but
the ANN inserts already performed persist, so the ANN index can hold
vectors whose relational rows were never committed.  On success all rows
are committed and all ANN inserts performed. -/
theorem addChunksBatch_spec (annFails : StoredChunk → Bool) (st : StoreState)
    (chunks : List StoredChunk) :
    (∀ e, addChunksBatch annFails st chunks = .error e →
      e.rows = st.rows ∧
      ∃ pre suf, chunks = pre ++ suf ∧ e.ann = st.ann ++ annInserts pre) ∧
    (∀ o, addChunksBatch annFails st chunks = .ok o →
      o.rows = st.rows ++ chunks ∧ o.ann = st.ann ++ annInserts chunks) := by
  have h := addChunksBatchGo_spec annFails st.rows chunks [] st.ann
  constructor
  · exact h.1
  · intro o ho
    obtain ⟨hrows, hann⟩ := h.2 o ho
    exact ⟨by simpa using hrows, hann⟩

/-- Closed witness for `addChunksBatch_spec`, instantiating its error branch
at the concrete failing run. -/
theorem addChunksBatch_spec_witness :
    (⟨[], [(0, [1])]⟩ : StoreState).rows = (⟨[], []⟩ : StoreState).rows ∧
    ∃ pre suf, [c1ChunkA, c1ChunkB] = pre ++ suf ∧
      (⟨[], [(0, [1])]⟩ : StoreState).ann =
        (⟨[], []⟩ : StoreState).ann ++ annInserts pre :=
  (addChunksBatch_spec (fun c => decide (c.id = 2)) ⟨[], []⟩
    [c1ChunkA, c1ChunkB]).1 ⟨[], [(0, [1])]⟩ (by rfl)

/-! ## `VectorStore::search` (vector_store.rs:174-247) -/

/-- The relational lookup `search` performs for one ANN key:
`SELECT ... WHERE knowledge_base_id = ?1 AND position = ?2` through
`query_row`, which yields the first matching row (or fails when none
matches). -/
def rowByKbAndPos (rows : List StoredChunk) (kb : String) (pos : Nat) :
    Option StoredChunk :=
  rows.find? (fun r => decide (r.knowledgeBaseId = kb ∧ r.position = pos))

/-- `search` returns rows with the embedding field cleared
(`embedding: vec![]` — "Don't return full embedding"). -/
def scrubEmbedding (r : StoredChunk) : StoredChunk := { r with embedding := [] }

/-- `VectorStore::search`, given the ANN index's reply `annResults` (pairs of
`position` key and cosine distance, in the index's own nearest-first
order).  For each key the relational row filtered to the requested
knowledge base is fetched; a key with no such row is silently dropped
(`if let Ok(chunk)`); the cosine distance becomes the score
`1 - distance`. -/
def vectorStoreSearch (rows : List StoredChunk) (kb : String)
    (annResults : List (Nat × ℚ)) : List (StoredChunk × ℚ) :=
  annResults.filterMap (fun kd =>
    (rowByKbAndPos rows kb kd.1).map (fun r => (scrubEmbedding r, 1 - kd.2)))

lemma length_filterMap_eq_length_filter_isSome {α β : Type} (f : α → Option β) :
    ∀ l : List α, (l.filterMap f).length = (l.filter (fun a => (f a).isSome)).length := by
  intro l
  induction l with
  | nil => rfl
  | cons a rest ih =>
    by_cases h : (f a).isSome
    · obtain ⟨b, hb⟩ := Option.isSome_iff_exists.mp h
      simp [List.filterMap_cons, List.filter_cons, hb, ih]
    · have hnone : f a = none := Option.not_isSome_iff_eq_none.mp h
      simp [List.filterMap_cons, List.filter_cons, hnone, ih]

/-- C5: `VectorStore::search` returns at most `limit` results (not more than
the ANN index replied with), ordered by the ANN ranking — which, with
scores `1 - distance`, is descending score —, each belonging to the
requested knowledge base; every ANN key without a relational row in that
knowledge base is dropped, so the result count is exactly the number of
keys whose lookup succeeds, which can be below `limit`. -/
theorem vectorStoreSearch_spec (rows : List StoredChunk) (kb : String)
    (annResults : List (Nat × ℚ)) (limit : Nat)
    (hlen : annResults.length ≤ limit)
    (hsort : annResults.Pairwise (fun a b => a.2 ≤ b.2)) :
    (vectorStoreSearch rows kb annResults).length ≤ limit ∧
    (vectorStoreSearch rows kb annResults).Pairwise (fun x y => y.2 ≤ x.2) ∧
    (∀ x ∈ vectorStoreSearch rows kb annResults, x.1.knowledgeBaseId = kb) ∧
    (vectorStoreSearch rows kb annResults).length =
      (annResults.filter (fun kd => (rowByKbAndPos rows kb kd.1).isSome)).length := by
  refine ⟨le_trans (List.length_filterMap_le _ _) hlen, ?_, ?_, ?_⟩
  · rw [vectorStoreSearch, List.pairwise_filterMap]
    refine hsort.imp ?_
    intro a b hab x hx y hy
    simp only [Option.mem_def, Option.map_eq_some'] at hx hy
    obtain ⟨rx, _, hxeq⟩ := hx
    obtain ⟨ry, _, hyeq⟩ := hy
    have : y.2 = 1 - b.2 := by rw [← hyeq]
    rw [this, ← hxeq]
    exact sub_le_sub_left hab 1
  · intro x hx
    rw [vectorStoreSearch, List.mem_filterMap] at hx
    obtain ⟨kd, _, hkd⟩ := hx
    simp only [Option.map_eq_some'] at hkd
    obtain ⟨r, hr, hxeq⟩ := hkd
    have hp := List.find?_some hr
    simp only [decide_eq_true_eq] at hp
    rw [← hxeq]
    exact hp.1
  · rw [vectorStoreSearch, length_filterMap_eq_length_filter_isSome]
    simp [Option.isSome_map']

/-- Rows used by the search witnesses: two knowledge bases sharing the ANN
position key space. -/
def wRows : List StoredChunk :=
  [⟨10, "kb1", "one", 3, 0, none, [1]⟩, ⟨11, "kb2", "two", 3, 1, none, [1]⟩]

/-- Witness for `vectorStoreSearch_spec`: key 1 belongs to another knowledge
base and is dropped, leaving one result out of a limit of 2. -/
theorem vectorStoreSearch_spec_witness :
    (([(0, 0), (1, 1)] : List (Nat × ℚ)).length ≤ 2 ∧
      ([(0, 0), (1, 1)] : List (Nat × ℚ)).Pairwise (fun a b => a.2 ≤ b.2)) ∧
    ((vectorStoreSearch wRows "kb1" [(0, 0), (1, 1)]).length ≤ 2 ∧
      (vectorStoreSearch wRows "kb1" [(0, 0), (1, 1)]).Pairwise
        (fun x y => y.2 ≤ x.2) ∧
      (∀ x ∈ vectorStoreSearch wRows "kb1" [(0, 0), (1, 1)],
        x.1.knowledgeBaseId = "kb1") ∧
      (vectorStoreSearch wRows "kb1" [(0, 0), (1, 1)]).length =
        (([(0, 0), (1, 1)] : List (Nat × ℚ)).filter
          (fun kd => (rowByKbAndPos wRows "kb1" kd.1).isSome)).length) :=
  ⟨⟨by decide, by decide⟩,
    vectorStoreSearch_spec wRows "kb1" [(0, 0), (1, 1)] 2 (by decide) (by decide)⟩

/-! ## `RAGService` (rag.rs) -/

/-- The comparator of `RAGService::search`
(`b.score.partial_cmp(&a.score)`, i.e. stable sort by descending score;
`ℚ` has no NaN, so the `unwrap_or(Equal)` branch never fires). -/
def scoreDescLe (a b : StoredChunk × ℚ) : Bool := decide (b.2 ≤ a.2)

/-- The concatenation of the per-knowledge-base search results gathered by
the loop of `RAGService::search` (rag.rs:98-105).  The ANN index is shared
across knowledge bases and the query is embedded once, so every per-kb
`VectorStore::search` call sees the same ANN reply `annResults`. -/
def ragCandidates (rows : List StoredChunk) (annResults : List (Nat × ℚ))
    (kbIds : List String) : List (StoredChunk × ℚ) :=
  kbIds.flatMap (fun kb => vectorStoreSearch rows kb annResults)

/-- `RAGService::search`: concatenate the per-kb results, stable-sort the
whole set by descending score, truncate to `limit`. -/
def ragSearch (rows : List StoredChunk) (annResults : List (Nat × ℚ))
    (kbIds : List String) (limit : Nat) : List (StoredChunk × ℚ) :=
  ((ragCandidates rows annResults kbIds).mergeSort scoreDescLe).take limit

lemma scoreDescLe_trans : ∀ a b c : StoredChunk × ℚ,
    scoreDescLe a b → scoreDescLe b c → scoreDescLe a c := by
  intro a b c hab hbc
  simp only [scoreDescLe, decide_eq_true_eq] at *
  exact le_trans hbc hab

lemma scoreDescLe_total : ∀ a b : StoredChunk × ℚ,
    (scoreDescLe a b || scoreDescLe b a) = true := by
  intro a b
  simp only [scoreDescLe, Bool.or_eq_true, decide_eq_true_eq]
  exact le_total b.2 a.2

lemma ragCandidates_length_le (rows : List StoredChunk)
    (annResults : List (Nat × ℚ)) (limit : Nat)
    (hlen : annResults.length ≤ limit) :
    ∀ kbIds : List String,
      (ragCandidates rows annResults kbIds).length ≤ kbIds.length * limit := by
  intro kbIds
  induction kbIds with
  | nil => simp [ragCandidates]
  | cons kb rest ih =>
    have hone : (vectorStoreSearch rows kb annResults).length ≤ limit :=
      le_trans (List.length_filterMap_le _ _) hlen
    calc (ragCandidates rows annResults (kb :: rest)).length
        = (vectorStoreSearch rows kb annResults).length
          + (ragCandidates rows annResults rest).length := by
          simp [ragCandidates]
      _ ≤ limit + rest.length * limit := Nat.add_le_add hone ih
      _ = (kb :: rest).length * limit := by
          simp [List.length_cons, Nat.succ_mul, Nat.add_comm]

/-- C6: `RAGService::search` concatenates the per-kb results (at most
`limit × number_of_kbs` candidates), sorts the concatenated set by score
descending, and truncates to `limit` — so the result has length at most
`limit`, is sorted by descending score, and is a global top-`limit` over
the whole candidate set: the candidates split (up to permutation) into the
returned results and a remainder whose scores are all at most every
returned score. -/
theorem ragSearch_spec (rows : List StoredChunk) (annResults : List (Nat × ℚ))
    (kbIds : List String) (limit : Nat)
    (hlen : annResults.length ≤ limit) :
    (ragSearch rows annResults kbIds limit).length ≤ limit ∧
    (ragSearch rows annResults kbIds limit).Pairwise (fun x y => y.2 ≤ x.2) ∧
    (ragCandidates rows annResults kbIds).length ≤ kbIds.length * limit ∧
    ∃ rest, (ragCandidates rows annResults kbIds).Perm
        (ragSearch rows annResults kbIds limit ++ rest) ∧
      ∀ x ∈ ragSearch rows annResults kbIds limit, ∀ y ∈ rest, y.2 ≤ x.2 := by
  set cands := ragCandidates rows annResults kbIds with hcands
  set sorted := cands.mergeSort scoreDescLe with hsorted
  have hpair : sorted.Pairwise (fun a b => scoreDescLe a b = true) :=
    List.sorted_mergeSort scoreDescLe_trans scoreDescLe_total cands
  have hpair' : sorted.Pairwise (fun x y => y.2 ≤ x.2) :=
    hpair.imp (fun h => by simpa [scoreDescLe] using h)
  have hsplit : sorted.take limit ++ sorted.drop limit = sorted :=
    List.take_append_drop limit sorted
  refine ⟨?_, ?_, ragCandidates_length_le rows annResults limit hlen kbIds, ?_⟩
  · simp [ragSearch]
  · exact hpair'.take
  · refine ⟨sorted.drop limit, ?_, ?_⟩
    · have hperm : sorted.Perm cands := List.mergeSort_perm cands scoreDescLe
      have : ragSearch rows annResults kbIds limit ++ sorted.drop limit = sorted := hsplit
      rw [this]
      exact hperm.symm
    · have hsplit' : List.Pairwise (fun x y : StoredChunk × ℚ => y.2 ≤ x.2)
          (sorted.take limit ++ sorted.drop limit) := by
        rw [hsplit]
        exact hpair'
      have := List.pairwise_append.mp hsplit'
      exact fun x hx y hy => this.2.2 x hx y hy

/-- Witness for `ragSearch_spec` at a concrete two-kb query. -/
theorem ragSearch_spec_witness :
    ([(0, 0), (1, 1)] : List (Nat × ℚ)).length ≤ 2 ∧
    ((ragSearch wRows [(0, 0), (1, 1)] ["kb1", "kb2"] 2).length ≤ 2 ∧
      (ragSearch wRows [(0, 0), (1, 1)] ["kb1", "kb2"] 2).Pairwise
        (fun x y => y.2 ≤ x.2) ∧
      (ragCandidates wRows [(0, 0), (1, 1)] ["kb1", "kb2"]).length ≤
        (["kb1", "kb2"] : List String).length * 2 ∧
      ∃ rest, (ragCandidates wRows [(0, 0), (1, 1)] ["kb1", "kb2"]).Perm
          (ragSearch wRows [(0, 0), (1, 1)] ["kb1", "kb2"] 2 ++ rest) ∧
        ∀ x ∈ ragSearch wRows [(0, 0), (1, 1)] ["kb1", "kb2"] 2,
          ∀ y ∈ rest, y.2 ≤ x.2) :=
  ⟨by decide, ragSearch_spec wRows [(0, 0), (1, 1)] ["kb1", "kb2"] 2 (by decide)⟩

/-! ## `RAGService::augment_query` (rag.rs:127-173) -/

/-- Abstract rendering of the `{:.2}` score formatting (round to
hundredths); no claim depends on the digits produced. -/
def renderRelevance (s : ℚ) : String :=
  let c : Int := ⌊s * 100 + 1 / 2⌋
  toString (c / 100) ++ "." ++
    (if (c % 100).natAbs < 10 then "0" else "") ++ toString (c % 100).natAbs

/-- One formatted source block:
`"[Source {i+1}] (Relevance: {score:.2})\n{content}"`. -/
def formatSource (i : Nat) (r : StoredChunk × ℚ) : String :=
  "[Source " ++ toString (i + 1) ++ "] (Relevance: " ++ renderRelevance r.2
    ++ ")\n" ++ r.1.content

/-- `RAGService::augment_query`: empty kb list, or an empty search result,
returns the query unchanged; otherwise the formatted context is prepended
under a "Relevant Context" section followed by a "User Query" section. -/
def augmentQuery (rows : List StoredChunk) (annResults : List (Nat × ℚ))
    (query : String) (kbIds : List String) (limit : Nat) : String :=
  if kbIds.isEmpty then query
  else
    let results := ragSearch rows annResults kbIds limit
    if results.isEmpty then query
    else
      let ctx := String.intercalate "\n\n---\n\n"
        (results.enum.map (fun p => formatSource p.1 p.2))
      "# Relevant Context from Knowledge Base\n\n" ++ ctx
        ++ "\n\n---\n\n# User Query\n\n" ++ query

/-- C9: `augment_query(q, [], n) = q` for every query and limit, and
whenever the underlying search returns no results the original query is
returned unchanged. -/
theorem augmentQuery_id (rows : List StoredChunk) (annResults : List (Nat × ℚ))
    (query : String) (kbIds : List String) (limit : Nat) :
    augmentQuery rows annResults query [] limit = query ∧
    (ragSearch rows annResults kbIds limit = [] →
      augmentQuery rows annResults query kbIds limit = query) := by
  constructor
  · simp [augmentQuery]
  · intro hempty
    by_cases hkb : kbIds.isEmpty
    · simp [augmentQuery, hkb]
    · simp [augmentQuery, hkb, hempty]

/-- Witness for `augmentQuery_id`: no stored rows, hence an empty search
result, and the query comes back unchanged. -/
theorem augmentQuery_id_witness :
    augmentQuery [] [] "What is X?" ["kb1"] 5 = "What is X?" :=
  (augmentQuery_id [] [] "What is X?" ["kb1"] 5).2
    (by simp [ragSearch, ragCandidates, vectorStoreSearch])

/-! ## FixedSize chunker (chunking/fixed_size.rs)

`FixedSizeChunker::chunk` encodes the whole document and slides a window of
`chunk_size` tokens with stride `chunk_size.saturating_sub(overlap_tokens)`
(`Nat` subtraction is saturating).  The `while position < tokens.len()`
loop is modelled with explicit fuel; `none` means the fuel ran out, i.e.
the source loop performs at least that many iterations — with enough fuel,
`none` for every fuel is non-termination. -/

/-- The window loop of `FixedSizeChunker::chunk` (fixed_size.rs:38-64),
returning the token windows in emission order. -/
def fixedChunkGo (chunkSize overlapTokens : Nat) (tokens : List Nat) :
    Nat → Nat → Option (List (List Nat))
  | 0, _ => none
  | fuel + 1, pos =>
    if pos < tokens.length then
      if min (pos + chunkSize) tokens.length = tokens.length then
        some [(tokens.drop pos).take (min (pos + chunkSize) tokens.length - pos)]
      else
        match fixedChunkGo chunkSize overlapTokens tokens fuel
            (pos + (chunkSize - overlapTokens)) with
        | none => none
        | some rest =>
          some ((tokens.drop pos).take (min (pos + chunkSize) tokens.length - pos)
            :: rest)
    else some []

/-- `FixedSizeChunker::chunk` at the window level, with fuel
`tokens.length + 1` (sufficient whenever the stride is positive). -/
def fixedWindows (chunkSize overlapTokens : Nat) (tokens : List Nat) :
    Option (List (List Nat)) :=
  fixedChunkGo chunkSize overlapTokens tokens (tokens.length + 1) 0

/-- `FixedSizeChunker::chunk`: each window is decoded back to text and
emitted as one chunk whose token count is the window length. -/
def fixedSizeChunk (decode : List Nat → List Char)
    (chunkSize overlapTokens : Nat) (tokens : List Nat) :
    Option (List (List Char × Nat)) :=
  (fixedWindows chunkSize overlapTokens tokens).map
    (List.map (fun w => (decode w, w.length)))

/-- The non-overlapping portions of the windows after the first: each
subsequent window starts `overlap_tokens` before the previous one ends, so
its fresh content is everything past its first `overlap_tokens` tokens. -/
def fixedReconTail (overlapTokens : Nat) (ws : List (List Nat)) : List Nat :=
  (ws.map (fun w => w.drop overlapTokens)).flatten

lemma fixedChunkGo_isSome (chunkSize overlapTokens : Nat)
    (hot : overlapTokens < chunkSize) (tokens : List Nat) :
    ∀ fuel pos, tokens.length - pos < fuel →
      (fixedChunkGo chunkSize overlapTokens tokens fuel pos).isSome := by
  intro fuel
  induction fuel with
  | zero => intro pos h; omega
  | succ fuel ih =>
    intro pos h
    rw [fixedChunkGo]
    by_cases hpos : pos < tokens.length
    · simp only [hpos, if_true]
      by_cases he : min (pos + chunkSize) tokens.length = tokens.length
      · simp [he]
      · simp only [he, if_false]
        have hrec := ih (pos + (chunkSize - overlapTokens)) (by omega)
        rcases hgo : fixedChunkGo chunkSize overlapTokens tokens fuel
            (pos + (chunkSize - overlapTokens)) with _ | rest
        · rw [hgo] at hrec; simp at hrec
        · simp
    · simp [hpos]

lemma fixedChunkGo_length_le (chunkSize overlapTokens : Nat) (tokens : List Nat) :
    ∀ fuel pos ws, fixedChunkGo chunkSize overlapTokens tokens fuel pos = some ws →
      ∀ w ∈ ws, w.length ≤ chunkSize := by
  intro fuel
  induction fuel with
  | zero => intro pos ws h; simp [fixedChunkGo] at h
  | succ fuel ih =>
    intro pos ws h
    rw [fixedChunkGo] at h
    by_cases hpos : pos < tokens.length
    · simp only [hpos, if_true] at h
      by_cases he : min (pos + chunkSize) tokens.length = tokens.length
      · simp only [he, if_true, Option.some.injEq] at h
        intro w hw
        rw [← h] at hw
        simp at hw
        subst hw
        simp
        omega
      · simp only [he, if_false] at h
        rcases hgo : fixedChunkGo chunkSize overlapTokens tokens fuel
            (pos + (chunkSize - overlapTokens)) with _ | rest
        · rw [hgo] at h; simp at h
        · rw [hgo] at h
          simp only [Option.some.injEq] at h
          intro w hw
          rw [← h] at hw
          rcases List.mem_cons.mp hw with hw | hw
          · subst hw
            simp
            omega
          · exact ih _ rest hgo w hw
    · simp only [hpos, if_false, Option.some.injEq] at h
      intro w hw
      rw [← h] at hw
      simp at hw

lemma fixedReconTail_nil (overlapTokens : Nat) :
    fixedReconTail overlapTokens [] = [] := rfl

lemma fixedReconTail_cons (overlapTokens : Nat) (w : List Nat)
    (ws : List (List Nat)) :
    fixedReconTail overlapTokens (w :: ws) =
      w.drop overlapTokens ++ fixedReconTail overlapTokens ws := by
  simp [fixedReconTail]

lemma fixedChunkGo_reconTail (chunkSize overlapTokens : Nat) (tokens : List Nat)
    (hot : overlapTokens < chunkSize) :
    ∀ fuel pos ws, fixedChunkGo chunkSize overlapTokens tokens fuel pos = some ws →
      fixedReconTail overlapTokens ws = tokens.drop (pos + overlapTokens) := by
  intro fuel
  induction fuel with
  | zero => intro pos ws h; simp [fixedChunkGo] at h
  | succ fuel ih =>
    intro pos ws h
    rw [fixedChunkGo] at h
    by_cases hpos : pos < tokens.length
    · rw [if_pos hpos] at h
      rcases Nat.lt_or_ge (pos + chunkSize) tokens.length with hend | hend
      · have hmin : min (pos + chunkSize) tokens.length = pos + chunkSize :=
          Nat.min_eq_left (Nat.le_of_lt hend)
        have hne : ¬ min (pos + chunkSize) tokens.length = tokens.length := by
          rw [hmin]; omega
        rw [if_neg hne] at h
        rcases hgo : fixedChunkGo chunkSize overlapTokens tokens fuel
            (pos + (chunkSize - overlapTokens)) with _ | rest
        · rw [hgo] at h; simp at h
        · rw [hgo] at h
          simp only [Option.some.injEq] at h
          subst h
          rw [fixedReconTail_cons, ih _ rest hgo, hmin,
            Nat.add_sub_cancel_left, List.drop_take, List.drop_drop,
            show pos + (chunkSize - overlapTokens) + overlapTokens =
              pos + chunkSize from by omega]
          have hsplit := List.take_append_drop (chunkSize - overlapTokens)
            (tokens.drop (pos + overlapTokens))
          rw [List.drop_drop,
            show pos + overlapTokens + (chunkSize - overlapTokens) =
              pos + chunkSize from by omega] at hsplit
          exact hsplit
      · have hmin : min (pos + chunkSize) tokens.length = tokens.length :=
          Nat.min_eq_right hend
        rw [if_pos hmin] at h
        simp only [Option.some.injEq] at h
        subst h
        rw [fixedReconTail_cons, fixedReconTail_nil, List.append_nil, hmin,
          List.take_of_length_le (by simp), List.drop_drop]
    · rw [if_neg hpos] at h
      simp only [Option.some.injEq] at h
      subst h
      rw [fixedReconTail_nil, List.drop_eq_nil_of_le (by omega)]

/-- C4: with a positive stride (`overlap_tokens < chunk_size`), the window
loop terminates and yields: one chunk per window (each decoded to text and
carrying the window length as its token count), no window longer than
`chunk_size`, and — taking the first window whole and of every later
window the part after its first `overlap_tokens` tokens — a concatenation
that reconstructs the full token stream (in particular the final partial
window is emitted). -/
lemma fixedChunkGo_recon (chunkSize overlapTokens : Nat) (tokens : List Nat)
    (hot : overlapTokens < chunkSize) (fuel pos : Nat) (ws : List (List Nat))
    (h : fixedChunkGo chunkSize overlapTokens tokens fuel pos = some ws) :
    (match ws with
     | [] => tokens.length ≤ pos
     | w :: rest =>
       w ++ fixedReconTail overlapTokens rest = tokens.drop pos) := by
  cases fuel with
  | zero => simp [fixedChunkGo] at h
  | succ fuel =>
    rw [fixedChunkGo] at h
    by_cases hpos : pos < tokens.length
    · rw [if_pos hpos] at h
      rcases Nat.lt_or_ge (pos + chunkSize) tokens.length with hend | hend
      · have hmin : min (pos + chunkSize) tokens.length = pos + chunkSize :=
          Nat.min_eq_left (Nat.le_of_lt hend)
        have hne : ¬ min (pos + chunkSize) tokens.length = tokens.length := by
          rw [hmin]; omega
        rw [if_neg hne] at h
        rcases hgo : fixedChunkGo chunkSize overlapTokens tokens fuel
            (pos + (chunkSize - overlapTokens)) with _ | rest
        · rw [hgo] at h; simp at h
        · rw [hgo] at h
          simp only [Option.some.injEq] at h
          subst h
          have hrt := fixedChunkGo_reconTail chunkSize overlapTokens tokens hot
            fuel _ rest hgo
          rw [show pos + (chunkSize - overlapTokens) + overlapTokens =
            pos + chunkSize from by omega] at hrt
          show (tokens.drop pos).take (min (pos + chunkSize) tokens.length - pos)
            ++ fixedReconTail overlapTokens rest = tokens.drop pos
          rw [hrt, hmin, Nat.add_sub_cancel_left]
          have hsplit := List.take_append_drop chunkSize (tokens.drop pos)
          rw [List.drop_drop] at hsplit
          exact hsplit
      · have hmin : min (pos + chunkSize) tokens.length = tokens.length :=
          Nat.min_eq_right hend
        rw [if_pos hmin] at h
        simp only [Option.some.injEq] at h
        subst h
        show (tokens.drop pos).take (min (pos + chunkSize) tokens.length - pos)
          ++ fixedReconTail overlapTokens [] = tokens.drop pos
        rw [fixedReconTail_nil, List.append_nil, hmin,
          List.take_of_length_le (by simp)]
    · rw [if_neg hpos] at h
      simp only [Option.some.injEq] at h
      subst h
      show tokens.length ≤ pos
      omega

/-- C4: with a positive stride (`overlap_tokens < chunk_size`), the window
loop terminates and yields: one chunk per window (each decoded to text and
carrying the window length as its token count), no window longer than
`chunk_size`, and — taking the first window whole and of every later
window the part after its first `overlap_tokens` tokens — a concatenation
that reconstructs the full token stream (in particular the final partial
window is emitted). -/
theorem fixedSizeChunk_spec (decode : List Nat → List Char)
    (chunkSize overlapTokens : Nat) (tokens : List Nat)
    (hot : overlapTokens < chunkSize) :
    ∃ ws, fixedWindows chunkSize overlapTokens tokens = some ws ∧
      fixedSizeChunk decode chunkSize overlapTokens tokens =
        some (ws.map (fun w => (decode w, w.length))) ∧
      (∀ w ∈ ws, w.length ≤ chunkSize) ∧
      (match ws with
       | [] => tokens = []
       | w :: rest => w ++ fixedReconTail overlapTokens rest = tokens) := by
  have hsome := fixedChunkGo_isSome chunkSize overlapTokens hot tokens
    (tokens.length + 1) 0 (by omega)
  obtain ⟨ws, hws⟩ := Option.isSome_iff_exists.mp hsome
  refine ⟨ws, hws, by rw [fixedSizeChunk, fixedWindows, hws]; rfl,
    fixedChunkGo_length_le chunkSize overlapTokens tokens _ 0 ws hws, ?_⟩
  have hrec := fixedChunkGo_recon chunkSize overlapTokens tokens hot
    (tokens.length + 1) 0 ws hws
  rcases ws with _ | ⟨w, rest⟩
  · exact List.length_eq_zero.mp (by omega)
  · simpa using hrec

/-- Witness for `fixedSizeChunk_spec` at `chunk_size = 2`,
`overlap_tokens = 1`, a three-token stream. -/
theorem fixedSizeChunk_spec_witness :
    (1 : Nat) < 2 ∧
    ∃ ws, fixedWindows 2 1 [5, 6, 7] = some ws ∧
      fixedSizeChunk (fun ts => ts.map Char.ofNat) 2 1 [5, 6, 7] =
        some (ws.map (fun w => (List.map Char.ofNat w, w.length))) ∧
      (∀ w ∈ ws, w.length ≤ 2) ∧
      (match ws with
       | [] => ([5, 6, 7] : List Nat) = []
       | w :: rest => w ++ fixedReconTail 1 rest = [5, 6, 7]) :=
  ⟨by decide, fixedSizeChunk_spec (fun ts => ts.map Char.ofNat) 2 1 [5, 6, 7]
    (by decide)⟩

/-- C10: termination of `FixedSizeChunker::chunk`.  When
`overlap_tokens < chunk_size` the stride is positive and the loop
terminates on every token stream (fuel `tokens.length + 1` suffices).
When `overlap_tokens >= chunk_size` (i.e. `overlap_percent >= 1`) and the
stream is longer than `chunk_size`, the saturating stride is zero: the
window start never advances and the loop never finishes (every fuel is
exhausted). -/
theorem fixedSizeChunk_termination (chunkSize overlapTokens : Nat)
    (tokens : List Nat) :
    (overlapTokens < chunkSize →
      (fixedWindows chunkSize overlapTokens tokens).isSome) ∧
    (chunkSize ≤ overlapTokens → chunkSize < tokens.length →
      ∀ fuel, fixedChunkGo chunkSize overlapTokens tokens fuel 0 = none) := by
  constructor
  · intro hot
    exact fixedChunkGo_isSome chunkSize overlapTokens hot tokens
      (tokens.length + 1) 0 (by omega)
  · intro hle hlen fuel
    induction fuel with
    | zero => rfl
    | succ fuel ih =>
      rw [fixedChunkGo]
      have hpos : 0 < tokens.length := by omega
      simp only [hpos, if_true]
      have he : min (0 + chunkSize) tokens.length ≠ tokens.length := by
        simp only [Nat.zero_add]
        omega
      simp only [he, if_false]
      have hstride : chunkSize - overlapTokens = 0 := by omega
      rw [show 0 + (chunkSize - overlapTokens) = 0 from by omega, ih]

/-- Witness for `fixedSizeChunk_termination`: terminating at stride 1 and
non-terminating at overlap equal to the chunk size. -/
theorem fixedSizeChunk_termination_witness :
    (fixedWindows 2 1 [5, 6, 7]).isSome ∧
    (∀ fuel, fixedChunkGo 1 1 [5, 6] fuel 0 = none) :=
  ⟨(fixedSizeChunk_termination 2 1 [5, 6, 7]).1 (by decide),
    (fixedSizeChunk_termination 1 1 [5, 6]).2 (by decide) (by decide)⟩

/-! ## Text splitting (chunking/semantic.rs)

`SemanticChunker` splits the document on blank lines (`content.split("\n\n")`)
and oversized paragraphs on sentence boundaries, the regex
`(?<=[.!?])\s+`: a separator is a maximal whitespace run immediately
preceded by `.`, `!` or `?`. -/

/-- Rust `char::is_whitespace` (the Unicode White_Space code points). -/
def isWspace (c : Char) : Bool :=
  decide ((9 ≤ c.toNat ∧ c.toNat ≤ 13) ∨ c.toNat = 32 ∨ c.toNat = 133 ∨
    c.toNat = 160 ∨ c.toNat = 5760 ∨ (8192 ≤ c.toNat ∧ c.toNat ≤ 8202) ∨
    c.toNat = 8232 ∨ c.toNat = 8233 ∨ c.toNat = 8239 ∨ c.toNat = 8287 ∨
    c.toNat = 12288)

/-- The sentence-ending punctuation of the boundary regex. -/
def isSentencePunct (c : Char) : Bool := decide (c = '.' ∨ c = '!' ∨ c = '?')

/-- Rust `str::split("\n\n")`: split at the leftmost, non-overlapping
occurrences of a blank line. -/
def splitOnBlank : List Char → List (List Char)
  | [] => [[]]
  | '\n' :: '\n' :: rest => [] :: splitOnBlank rest
  | c :: rest =>
    match splitOnBlank rest with
    | [] => [[c]]
    | p :: ps => (c :: p) :: ps

/-- The paragraph list of `SemanticChunker::chunk`: blank-line pieces with
the blank ones (`p.trim().is_empty()`) removed. -/
def semanticParagraphs (doc : List Char) : List (List Char) :=
  (splitOnBlank doc).filter (fun p => !(p.all isWspace))

/-- Maximal runs of same-class (whitespace / non-whitespace) characters,
tagged with the class. -/
def charRuns : List Char → List (Bool × List Char)
  | [] => []
  | c :: rest =>
    match charRuns rest with
    | [] => [(isWspace c, [c])]
    | (b, run) :: more =>
      if isWspace c = b then (b, c :: run) :: more
      else (isWspace c, [c]) :: (b, run) :: more

/-- Reassemble the runs into sentence pieces: a whitespace run is a
separator (matched by `(?<=[.!?])\s+` and discarded) exactly when the text
accumulated so far ends with sentence punctuation; every other run is
appended to the current piece. -/
def piecesFromRuns : List Char → List (Bool × List Char) → List (List Char)
  | piece, [] => [piece]
  | piece, (b, run) :: more =>
    if b then
      if (match piece.getLast? with
          | some c => isSentencePunct c
          | none => false) then
        piece :: piecesFromRuns [] more
      else piecesFromRuns (piece ++ run) more
    else piecesFromRuns (piece ++ run) more

/-- `SemanticChunker::split_sentences`: regex split, then drop blank
pieces (`!s.trim().is_empty()`). -/
def splitSentences (text : List Char) : List (List Char) :=
  (piecesFromRuns [] (charRuns text)).filter (fun s => !(s.all isWspace))

/-! ## Semantic chunker (chunking/semantic.rs:66-162)

A chunk is modelled as its `(content, tokens)` pair; `position` is the
index in the emitted list (`chunks.len()` at push time) and the metadata
record is the constant `{strategy: "semantic", boundary_type: "sentence"}`. -/

/-- Accumulator of the paragraph loop: emitted chunks, the running chunk
text (`current_chunk`) and its token count (`current_tokens`). -/
structure SemState where
  chunks : List (List Char × Nat)
  cur : List Char
  curTok : Nat
deriving DecidableEq, Repr

/-- The sentence loop body (semantic.rs:100-121): flush when adding the
sentence would overflow `max_size` and the running chunk already meets
`min_size`; otherwise append the sentence with a `' '` joiner. -/
def semStepSentence (count : List Char → Nat) (minSize maxSize : Nat)
    (st : SemState) (s : List Char) : SemState :=
  let t := count s
  if maxSize < st.curTok + t ∧ minSize ≤ st.curTok then
    ⟨st.chunks ++ [(st.cur, st.curTok)], s, t⟩
  else
    ⟨st.chunks, if st.cur.isEmpty then s else st.cur ++ ' ' :: s, st.curTok + t⟩

/-- The paragraph loop body (semantic.rs:81-143).  An oversized paragraph
(`para_tokens > max_size`) first flushes the running chunk — only if it is
non-empty and already meets `min_size` — and then accumulates the
paragraph's sentences; a fitting paragraph is accumulated under the same
flush rule with a `"\n\n"` joiner. -/
def semStepParagraph (count : List Char → Nat) (minSize maxSize : Nat)
    (st : SemState) (p : List Char) : SemState :=
  let pt := count p
  if maxSize < pt then
    (splitSentences p).foldl (semStepSentence count minSize maxSize)
      (if ¬ st.cur.isEmpty ∧ minSize ≤ st.curTok then
        ⟨st.chunks ++ [(st.cur, st.curTok)], [], 0⟩ else st)
  else
    if maxSize < st.curTok + pt ∧ minSize ≤ st.curTok then
      ⟨st.chunks ++ [(st.cur, st.curTok)], p, pt⟩
    else
      ⟨st.chunks, if st.cur.isEmpty then p else st.cur ++ '\n' :: '\n' :: p,
        st.curTok + pt⟩

/-- `SemanticChunker::chunk`: fold the paragraphs and flush the final
accumulated text if non-empty. -/
def semanticChunk (count : List Char → Nat) (minSize maxSize : Nat)
    (doc : List Char) : List (List Char × Nat) :=
  let st := (semanticParagraphs doc).foldl
    (semStepParagraph count minSize maxSize) ⟨[], [], 0⟩
  if st.cur.isEmpty then st.chunks else st.chunks ++ [(st.cur, st.curTok)]

/-- The paragraph step as worded by claim C2: on an oversized paragraph the
running chunk is flushed whenever it is non-empty, *whatever its token
count*. -/
def semStepParagraphSpecC2 (count : List Char → Nat) (minSize maxSize : Nat)
    (st : SemState) (p : List Char) : SemState :=
  let pt := count p
  if maxSize < pt then
    (splitSentences p).foldl (semStepSentence count minSize maxSize)
      (if ¬ st.cur.isEmpty then
        ⟨st.chunks ++ [(st.cur, st.curTok)], [], 0⟩ else st)
  else
    if maxSize < st.curTok + pt ∧ minSize ≤ st.curTok then
      ⟨st.chunks ++ [(st.cur, st.curTok)], p, pt⟩
    else
      ⟨st.chunks, if st.cur.isEmpty then p else st.cur ++ '\n' :: '\n' :: p,
        st.curTok + pt⟩

/-- The chunker as worded by claim C2. -/
def semanticChunkSpecC2 (count : List Char → Nat) (minSize maxSize : Nat)
    (doc : List Char) : List (List Char × Nat) :=
  let st := (semanticParagraphs doc).foldl
    (semStepParagraphSpecC2 count minSize maxSize) ⟨[], [], 0⟩
  if st.cur.isEmpty then st.chunks else st.chunks ++ [(st.cur, st.curTok)]

/-- C2, counterexample.  With `min = 5`, `max = 10`, token counts equal to
character counts, and the document `"ab.\n\nabcdef. ghijkl."`: the second
paragraph is oversized, the running chunk `"ab."` has only 3 tokens —
below `min_chunk_size` — so the code does NOT flush it (the flush is
guarded by `current_tokens >= min_size`) and instead accumulates the
sentences onto it, producing 2 chunks, while the claim's unconditional
flush would produce 3. -/
theorem semanticChunk_flush_guard_counterexample :
    (semanticChunk List.length 5 10 ("ab.\n\nabcdef. ghijkl.".toList)).length = 2 ∧
    (semanticChunkSpecC2 List.length 5 10 ("ab.\n\nabcdef. ghijkl.".toList)).length = 3 := by
  decide

/-- C2 (amended): when `SemanticChunker::chunk` encounters a paragraph
whose token count exceeds `max_chunk_size`, it flushes the accumulated
chunk only when that chunk is non-empty AND its token count already meets
`min_chunk_size`; otherwise the paragraph's sentences are accumulated onto
the existing running chunk.  In both cases the paragraph is re-split into
sentences (boundary: `. ! ?` followed by whitespace) and the sentences are
folded under the same min/max flush rule as paragraphs. -/
theorem semStepParagraph_oversized_spec (count : List Char → Nat)
    (minSize maxSize : Nat) (st : SemState) (p : List Char)
    (hbig : maxSize < count p) :
    (¬ st.cur.isEmpty ∧ minSize ≤ st.curTok →
      semStepParagraph count minSize maxSize st p =
        (splitSentences p).foldl (semStepSentence count minSize maxSize)
          ⟨st.chunks ++ [(st.cur, st.curTok)], [], 0⟩) ∧
    (st.cur.isEmpty ∨ st.curTok < minSize →
      semStepParagraph count minSize maxSize st p =
        (splitSentences p).foldl (semStepSentence count minSize maxSize) st) := by
  constructor
  · intro hflush
    simp only [semStepParagraph]
    rw [if_pos hbig, if_pos hflush]
  · intro hkeep
    have hnot : ¬ (¬ st.cur.isEmpty ∧ minSize ≤ st.curTok) := by
      rcases hkeep with h | h
      · intro hc; exact hc.1 h
      · intro hc; omega
    simp only [semStepParagraph]
    rw [if_pos hbig, if_neg hnot]

/-- Witness for `semStepParagraph_oversized_spec` at the counterexample's
second paragraph: the running chunk is kept because it is under
`min_chunk_size`. -/
theorem semStepParagraph_oversized_spec_witness :
    (10 : Nat) < List.length ("abcdef. ghijkl.".toList) ∧
    semStepParagraph List.length 5 10 ⟨[], "ab.".toList, 3⟩
        ("abcdef. ghijkl.".toList) =
      (splitSentences ("abcdef. ghijkl.".toList)).foldl
        (semStepSentence List.length 5 10) ⟨[], "ab.".toList, 3⟩ :=
  ⟨by decide,
    (semStepParagraph_oversized_spec List.length 5 10 ⟨[], "ab.".toList, 3⟩
      ("abcdef. ghijkl.".toList) (by decide)).2 (Or.inr (by decide))⟩

/-- C3, counterexample.  With `min = 10`, `max = 12`, token counts equal
to character counts and three paragraphs of 8, 8 and 1 tokens: the second
paragraph overflows `max` but the rule flushes only when the running total
already meets `min` (8 < 10), so it is appended, producing a NON-last
chunk of 16 tokens — above `max_chunk_size` — whose text splits into two
sentences, not one. -/
theorem semanticChunk_max_bound_counterexample :
    ((semanticChunk List.length 10 12
        ("aaaaaaa.\n\nbbbbbbb.\n\nc".toList)).map Prod.snd = [16, 1]) ∧
    ((semanticChunk List.length 10 12
        ("aaaaaaa.\n\nbbbbbbb.\n\nc".toList)).map
      (fun c => (splitSentences c.1).length) = [2, 1]) := by
  decide

/-- The individual accumulation pieces of a semantic run: each paragraph
at most `max_size` stands for itself, an oversized paragraph stands for
its sentences. -/
def semanticPieces (count : List Char → Nat) (maxSize : Nat)
    (doc : List Char) : List (List Char) :=
  (semanticParagraphs doc).flatMap
    (fun p => if maxSize < count p then splitSentences p else [p])

/-- The largest token count among the accumulation pieces. -/
def maxPieceTok (count : List Char → Nat) (maxSize : Nat)
    (doc : List Char) : Nat :=
  ((semanticPieces count maxSize doc).map count).foldr max 0

/-- A chunk's token-count bound actually maintained by the semantic loop:
within `max_size`, or a single piece (at most the largest piece count
`M`), or closed while the running total was still under `min_size`
(strictly below `min_size + M`). -/
def semChunkTokOk (minSize maxSize m tok : Nat) : Prop :=
  tok ≤ maxSize ∨ tok ≤ m ∨ tok < minSize + m

/-- Loop invariant of the semantic chunker. -/
structure SemInv (minSize maxSize m : Nat) (st : SemState) : Prop where
  minOk : ∀ c ∈ st.chunks, minSize ≤ c.2
  maxOk : ∀ c ∈ st.chunks, semChunkTokOk minSize maxSize m c.2
  curOk : semChunkTokOk minSize maxSize m st.curTok
  emptyOk : st.cur.isEmpty → st.curTok = 0

/-- Token total processed so far: emitted chunks plus the running chunk. -/
def semTotal (st : SemState) : Nat := (st.chunks.map Prod.snd).sum + st.curTok

lemma le_foldr_max (l : List Nat) : ∀ x ∈ l, x ≤ l.foldr max 0 := by
  induction l with
  | nil => intro x hx; simp at hx
  | cons a rest ih =>
    intro x hx
    rcases List.mem_cons.mp hx with h | h
    · subst h
      show x ≤ max x (rest.foldr max 0)
      exact le_max_left _ _
    · calc x ≤ rest.foldr max 0 := ih x h
        _ ≤ max a (rest.foldr max 0) := le_max_right _ _
        _ = (a :: rest).foldr max 0 := rfl

lemma semStepSentence_inv (count : List Char → Nat) (minSize maxSize m : Nat)
    (st : SemState) (s : List Char) (hne : s ≠ []) (hm : count s ≤ m)
    (hinv : SemInv minSize maxSize m st) :
    SemInv minSize maxSize m (semStepSentence count minSize maxSize st s) ∧
    semTotal (semStepSentence count minSize maxSize st s) =
      semTotal st + count s := by
  rw [semStepSentence]
  by_cases hc : maxSize < st.curTok + count s ∧ minSize ≤ st.curTok
  · rw [if_pos hc]
    refine ⟨⟨?_, ?_, ?_, ?_⟩, ?_⟩
    · intro c hc'
      rcases List.mem_append.mp hc' with h | h
      · exact hinv.minOk c h
      · rw [List.mem_singleton] at h
        subst h
        exact hc.2
    · intro c hc'
      rcases List.mem_append.mp hc' with h | h
      · exact hinv.maxOk c h
      · rw [List.mem_singleton] at h
        subst h
        exact hinv.curOk
    · exact Or.inr (Or.inl hm)
    · intro hs; exact absurd (List.isEmpty_iff.mp hs) hne
    · simp [semTotal]
      try omega
  · rw [if_neg hc]
    refine ⟨⟨hinv.minOk, hinv.maxOk, ?_, ?_⟩, ?_⟩
    · rcases Nat.lt_or_ge maxSize (st.curTok + count s) with hover | hfit
      · have hmin : st.curTok < minSize := by
          by_contra hge
          exact hc ⟨hover, by omega⟩
        refine Or.inr (Or.inr ?_)
        show st.curTok + count s < minSize + m
        omega
      · refine Or.inl ?_
        show st.curTok + count s ≤ maxSize
        exact hfit
    · intro hs
      by_cases hcur : st.cur.isEmpty
      · simp only [hcur, if_true] at hs
        exact absurd (List.isEmpty_iff.mp hs) hne
      · simp only [hcur, if_false] at hs
        rw [List.isEmpty_iff] at hs
        simp at hs
    · simp [semTotal, Nat.add_assoc]

lemma semFoldSentences_inv (count : List Char → Nat) (minSize maxSize m : Nat) :
    ∀ (ss : List (List Char)) (st : SemState),
      (∀ s ∈ ss, s ≠ [] ∧ count s ≤ m) →
      SemInv minSize maxSize m st →
      SemInv minSize maxSize m
        (ss.foldl (semStepSentence count minSize maxSize) st) ∧
      semTotal (ss.foldl (semStepSentence count minSize maxSize) st) =
        semTotal st + (ss.map count).sum := by
  intro ss
  induction ss with
  | nil => intro st _ hinv; exact ⟨hinv, by simp⟩
  | cons s rest ih =>
    intro st hs hinv
    have hstep := semStepSentence_inv count minSize maxSize m st s
      (hs s (List.mem_cons_self s rest)).1 (hs s (List.mem_cons_self s rest)).2 hinv
    have hrest := ih (semStepSentence count minSize maxSize st s)
      (fun x hx => hs x (List.mem_cons_of_mem s hx)) hstep.1
    refine ⟨hrest.1, ?_⟩
    rw [List.foldl_cons] at *
    rw [hrest.2, hstep.2]
    simp
    omega

lemma semStepParagraph_inv (count : List Char → Nat) (minSize maxSize m : Nat)
    (st : SemState) (p : List Char) (hpne : p ≠ [])
    (hpieces : ∀ s ∈ (if maxSize < count p then splitSentences p else [p]),
      s ≠ [] ∧ count s ≤ m)
    (hinv : SemInv minSize maxSize m st) :
    SemInv minSize maxSize m (semStepParagraph count minSize maxSize st p) ∧
    semTotal (semStepParagraph count minSize maxSize st p) =
      semTotal st +
        (((if maxSize < count p then splitSentences p else [p]).map count).sum) := by
  by_cases hbig : maxSize < count p
  · rw [if_pos hbig] at hpieces ⊢
    simp only [semStepParagraph]
    rw [if_pos hbig]
    by_cases hflush : ¬ st.cur.isEmpty ∧ minSize ≤ st.curTok
    · rw [if_pos hflush]
      have hinv1 : SemInv minSize maxSize m
          ⟨st.chunks ++ [(st.cur, st.curTok)], [], 0⟩ := by
        refine ⟨?_, ?_, Or.inl (Nat.zero_le _), fun _ => rfl⟩
        · intro c hc'
          rcases List.mem_append.mp hc' with h | h
          · exact hinv.minOk c h
          · rw [List.mem_singleton] at h
            subst h
            exact hflush.2
        · intro c hc'
          rcases List.mem_append.mp hc' with h | h
          · exact hinv.maxOk c h
          · rw [List.mem_singleton] at h
            subst h
            exact hinv.curOk
      have := semFoldSentences_inv count minSize maxSize m (splitSentences p)
        ⟨st.chunks ++ [(st.cur, st.curTok)], [], 0⟩ hpieces hinv1
      refine ⟨this.1, ?_⟩
      rw [this.2]
      simp [semTotal]
      try omega
    · rw [if_neg hflush]
      exact semFoldSentences_inv count minSize maxSize m (splitSentences p)
        st hpieces hinv
  · rw [if_neg hbig] at hpieces ⊢
    have hp := hpieces p (List.mem_singleton.mpr rfl)
    simp only [semStepParagraph]
    rw [if_neg hbig]
    by_cases hc : maxSize < st.curTok + count p ∧ minSize ≤ st.curTok
    · rw [if_pos hc]
      refine ⟨⟨?_, ?_, Or.inr (Or.inl hp.2), ?_⟩, ?_⟩
      · intro c hc'
        rcases List.mem_append.mp hc' with h | h
        · exact hinv.minOk c h
        · rw [List.mem_singleton] at h
          subst h
          exact hc.2
      · intro c hc'
        rcases List.mem_append.mp hc' with h | h
        · exact hinv.maxOk c h
        · rw [List.mem_singleton] at h
          subst h
          exact hinv.curOk
      · intro hs; exact absurd (List.isEmpty_iff.mp hs) hpne
      · simp [semTotal]
      try omega
    · rw [if_neg hc]
      refine ⟨⟨hinv.minOk, hinv.maxOk, ?_, ?_⟩, ?_⟩
      · rcases Nat.lt_or_ge maxSize (st.curTok + count p) with hover | hfit
        · have hmin : st.curTok < minSize := by
            by_contra hge
            exact hc ⟨hover, by omega⟩
          refine Or.inr (Or.inr ?_)
          show st.curTok + count p < minSize + m
          omega
        · refine Or.inl ?_
          show st.curTok + count p ≤ maxSize
          exact hfit
      · intro hs
        by_cases hcur : st.cur.isEmpty
        · simp only [hcur, if_true] at hs
          exact absurd (List.isEmpty_iff.mp hs) hpne
        · simp only [hcur, if_false] at hs
          rw [List.isEmpty_iff] at hs
          simp at hs
      · simp [semTotal, Nat.add_assoc]

lemma semFoldParagraphs_inv (count : List Char → Nat) (minSize maxSize m : Nat) :
    ∀ (ps : List (List Char)) (st : SemState),
      (∀ p ∈ ps, p ≠ [] ∧
        ∀ s ∈ (if maxSize < count p then splitSentences p else [p]),
          s ≠ [] ∧ count s ≤ m) →
      SemInv minSize maxSize m st →
      SemInv minSize maxSize m
        (ps.foldl (semStepParagraph count minSize maxSize) st) ∧
      semTotal (ps.foldl (semStepParagraph count minSize maxSize) st) =
        semTotal st +
          (ps.map (fun p =>
            (((if maxSize < count p then splitSentences p else [p]).map
              count).sum))).sum := by
  intro ps
  induction ps with
  | nil => intro st _ hinv; exact ⟨hinv, by simp⟩
  | cons p rest ih =>
    intro st hs hinv
    have hp := hs p (List.mem_cons_self p rest)
    have hstep := semStepParagraph_inv count minSize maxSize m st p hp.1 hp.2 hinv
    have hrest := ih (semStepParagraph count minSize maxSize st p)
      (fun x hx => hs x (List.mem_cons_of_mem p hx)) hstep.1
    refine ⟨hrest.1, ?_⟩
    rw [List.foldl_cons] at *
    rw [hrest.2, hstep.2]
    simp
    omega

lemma sum_map_flatMap {α β : Type} (g : β → Nat) (f : α → List β) :
    ∀ ps : List α,
      ((ps.flatMap f).map g).sum = (ps.map (fun p => ((f p).map g).sum)).sum := by
  intro ps
  induction ps with
  | nil => rfl
  | cons p rest ih => simp [List.flatMap_cons, ih]

/-- C3 (amended): in the output of `SemanticChunker::chunk`, every chunk
except the last has `tokens >= min_chunk_size` (always — every in-loop
flush is guarded by `current_tokens >= min_size`); the final accumulated
text is always emitted as the last chunk even if under `min_chunk_size`
(token totals are conserved: the chunk token counts sum to the piece
counts of the whole document); but the claimed `max_chunk_size` bound is
weaker than stated: because a piece is appended whenever the running total
is still below `min_chunk_size` even when that overflows `max_chunk_size`,
a chunk can exceed `max_chunk_size` without being a single oversized
sentence — what holds is that every chunk is within `max_chunk_size`, or
is a single piece (at most the document's largest paragraph/sentence piece
count `M`), or has fewer than `min_chunk_size + M` tokens. -/
theorem semanticChunk_bounds (count : List Char → Nat) (minSize maxSize : Nat)
    (doc : List Char) :
    (∀ c ∈ (semanticChunk count minSize maxSize doc).dropLast, minSize ≤ c.2) ∧
    (∀ c ∈ semanticChunk count minSize maxSize doc,
      semChunkTokOk minSize maxSize (maxPieceTok count maxSize doc) c.2) ∧
    ((semanticChunk count minSize maxSize doc).map Prod.snd).sum =
      ((semanticPieces count maxSize doc).map count).sum := by
  have hcond : ∀ p ∈ semanticParagraphs doc, p ≠ [] ∧
      ∀ s ∈ (if maxSize < count p then splitSentences p else [p]),
        s ≠ [] ∧ count s ≤ maxPieceTok count maxSize doc := by
    intro p hp
    have hpblank : ¬ (p.all isWspace) := by
      have := List.of_mem_filter hp
      simpa using this
    constructor
    · intro hnil
      exact hpblank (by rw [hnil]; rfl)
    · intro s hsmem
      have hspieces : s ∈ semanticPieces count maxSize doc := by
        rw [semanticPieces, List.mem_flatMap]
        exact ⟨p, hp, hsmem⟩
      refine ⟨?_, ?_⟩
      · by_cases hbig : maxSize < count p
        · rw [if_pos hbig] at hsmem
          have := List.of_mem_filter hsmem
          intro hnil
          rw [hnil] at this
          simp at this
        · rw [if_neg hbig] at hsmem
          rw [List.mem_singleton] at hsmem
          subst hsmem
          intro hnil
          exact hpblank (by rw [hnil]; rfl)
      · exact le_foldr_max _ (count s)
          (List.mem_map.mpr ⟨s, hspieces, rfl⟩)
  have hinit : SemInv minSize maxSize (maxPieceTok count maxSize doc)
      ⟨[], [], 0⟩ :=
    ⟨by intro c hc; simp at hc, by intro c hc; simp at hc,
      Or.inl (Nat.zero_le _), fun _ => rfl⟩
  have hfold := semFoldParagraphs_inv count minSize maxSize
    (maxPieceTok count maxSize doc) (semanticParagraphs doc) ⟨[], [], 0⟩
    hcond hinit
  set st := (semanticParagraphs doc).foldl
    (semStepParagraph count minSize maxSize) ⟨[], [], 0⟩ with hst
  have hsum : semTotal st =
      ((semanticPieces count maxSize doc).map count).sum := by
    rw [hfold.2]
    rw [semanticPieces, sum_map_flatMap]
    simp [semTotal]
  have hchunk : semanticChunk count minSize maxSize doc =
      (if st.cur.isEmpty then st.chunks
        else st.chunks ++ [(st.cur, st.curTok)]) := rfl
  by_cases hcur : st.cur.isEmpty
  · rw [hchunk, if_pos hcur]
    refine ⟨?_, hfold.1.maxOk, ?_⟩
    · intro c hc
      exact hfold.1.minOk c (List.dropLast_subset _ hc)
    · have h0 := hfold.1.emptyOk hcur
      rw [← hsum]
      simp [semTotal, h0]
  · rw [hchunk, if_neg hcur]
    refine ⟨?_, ?_, ?_⟩
    · intro c hc
      rw [List.dropLast_concat] at hc
      exact hfold.1.minOk c hc
    · intro c hc
      rcases List.mem_append.mp hc with h | h
      · exact hfold.1.maxOk c h
      · rw [List.mem_singleton] at h
        subst h
        exact hfold.1.curOk
    · rw [← hsum]
      simp [semTotal]

/-- Witness is not required for `semanticChunk_bounds` (no hypotheses),
but the bounds are checked at the counterexample document anyway. -/
theorem semanticChunk_bounds_example :
    (∀ c ∈ (semanticChunk List.length 10 12
        ("aaaaaaa.\n\nbbbbbbb.\n\nc".toList)).dropLast, 10 ≤ c.2) ∧
    (∀ c ∈ semanticChunk List.length 10 12
        ("aaaaaaa.\n\nbbbbbbb.\n\nc".toList),
      semChunkTokOk 10 12
        (maxPieceTok List.length 12 ("aaaaaaa.\n\nbbbbbbb.\n\nc".toList)) c.2) ∧
    ((semanticChunk List.length 10 12
        ("aaaaaaa.\n\nbbbbbbb.\n\nc".toList)).map Prod.snd).sum =
      ((semanticPieces List.length 12
        ("aaaaaaa.\n\nbbbbbbb.\n\nc".toList)).map List.length).sum :=
  semanticChunk_bounds List.length 10 12 ("aaaaaaa.\n\nbbbbbbb.\n\nc".toList)

/-! ## Hierarchical chunker (chunking/hierarchical.rs)

`Uuid::new_v4()` ids are modelled by the creation-order counter: the
parents are all created first (`create_parent_chunks`), so they get ids
`0..n-1` (equal to their pre-assembly position `chunks.len()`); children
are created afterwards during the assembly loop and continue the
counter.  The token windows `[position..end)` with `position = end` after
each window are exactly successive `take size`/`drop size` steps. -/

/-- A chunk as produced by `HierarchicalChunker`. -/
structure HChunk where
  id : Nat
  content : List Char
  tokens : Nat
  position : Nat
  parent : Option Nat
deriving DecidableEq, Repr

/-- The non-overlapping window loop shared by `create_parent_chunks` and
`create_child_chunks` (`while position < tokens.len()` with
`position = end`), with fuel; `none` means the fuel ran out, which with
`size = 0` is the source's non-termination. -/
def chunksOfGo {α : Type} (size : Nat) : Nat → List α → Option (List (List α))
  | 0, _ => none
  | fuel + 1, l =>
    if l.isEmpty then some []
    else (chunksOfGo size fuel (l.drop size)).map (fun ws => l.take size :: ws)

/-- The window loop with fuel `l.length + 1`, sufficient for `0 < size`. -/
def chunksOf? {α : Type} (size : Nat) (l : List α) : Option (List (List α)) :=
  chunksOfGo size (l.length + 1) l

/-- The parent-creation loop: window `i` becomes a chunk with id and
position `i` (`chunks.len()` at push time) and no parent. -/
def parentList (decode : List Nat → List Char) : Nat → List (List Nat) → List HChunk
  | _, [] => []
  | i, w :: ws => ⟨i, decode w, w.length, i, none⟩ :: parentList decode (i + 1) ws

/-- `HierarchicalChunker::create_parent_chunks`. -/
def parentChunks (encode : List Char → List Nat) (decode : List Nat → List Char)
    (parentSize : Nat) (doc : List Char) : Option (List HChunk) :=
  (chunksOf? parentSize (encode doc)).map (parentList decode 0)

/-- The child-creation loop of `create_child_chunks`: child `j` gets the
next fresh id, position `base_position + j` and its parent's id. -/
def childList (decode : List Nat → List Char) (parentId : Nat) :
    Nat → Nat → List (List Nat) → List HChunk
  | _, _, [] => []
  | basePos, nid, w :: ws =>
    ⟨nid, decode w, w.length, basePos, some parentId⟩ ::
      childList decode parentId (basePos + 1) (nid + 1) ws

/-- `HierarchicalChunker::create_child_chunks`: re-encode the parent's
content; a parent at or under `child_size` gets no children, otherwise it
is split into `child_size` windows. -/
def childChunks (encode : List Char → List Nat) (decode : List Nat → List Char)
    (childSize : Nat) (parent : HChunk) (basePos nid : Nat) :
    Option (List HChunk) :=
  if (encode parent.content).length ≤ childSize then some []
  else (chunksOf? childSize (encode parent.content)).map
    (childList decode parent.id basePos nid)

/-- The assembly loop of `HierarchicalChunker::chunk`
(hierarchical.rs:117-132): emit each parent with its position reassigned
to the running counter, then — when `max_depth > 1` — its children. -/
def hierAssemble (encode : List Char → List Nat) (decode : List Nat → List Char)
    (childSize maxDepth : Nat) :
    List HChunk → Nat → Nat → Option (List HChunk)
  | [], _, _ => some []
  | parent :: rest, nextPos, nid =>
    if 1 < maxDepth then
      (childChunks encode decode childSize parent (nextPos + 1) nid).bind
        (fun cs =>
          (hierAssemble encode decode childSize maxDepth rest
              (nextPos + 1 + cs.length) (nid + cs.length)).map
            (fun out => { parent with position := nextPos } :: (cs ++ out)))
    else
      (hierAssemble encode decode childSize maxDepth rest (nextPos + 1) nid).map
        (fun out => { parent with position := nextPos } :: out)

/-- `HierarchicalChunker::chunk`. -/
def hierarchicalChunk (encode : List Char → List Nat)
    (decode : List Nat → List Char) (parentSize childSize maxDepth : Nat)
    (doc : List Char) : Option (List HChunk) :=
  (parentChunks encode decode parentSize doc).bind (fun parents =>
    hierAssemble encode decode childSize maxDepth parents 0 parents.length)

lemma chunksOfGo_isSome {α : Type} (size : Nat) (hsize : 0 < size) :
    ∀ (fuel : Nat) (l : List α), l.length < fuel →
      (chunksOfGo size fuel l).isSome := by
  intro fuel
  induction fuel with
  | zero => intro l h; omega
  | succ fuel ih =>
    intro l h
    rw [chunksOfGo]
    by_cases hl : l.isEmpty
    · simp [hl]
    · rw [if_neg hl]
      have hlen : 0 < l.length := by
        cases l with
        | nil => simp at hl
        | cons a rest => simp
      have := ih (l.drop size) (by simp; omega)
      rcases hgo : chunksOfGo size fuel (l.drop size) with _ | ws
      · rw [hgo] at this; simp at this
      · simp

lemma chunksOf?_isSome {α : Type} (size : Nat) (hsize : 0 < size)
    (l : List α) : (chunksOf? size l).isSome :=
  chunksOfGo_isSome size hsize (l.length + 1) l (by omega)

lemma parentList_facts (decode : List Nat → List Char) :
    ∀ (ws : List (List Nat)) (i : Nat), ∀ c ∈ parentList decode i ws,
      c.parent = none ∧ ∃ w ∈ ws, c.content = decode w ∧ c.tokens = w.length := by
  intro ws
  induction ws with
  | nil => intro i c hc; simp [parentList] at hc
  | cons w rest ih =>
    intro i c hc
    rw [parentList] at hc
    rcases List.mem_cons.mp hc with h | h
    · subst h
      exact ⟨rfl, w, List.mem_cons_self w rest, rfl, rfl⟩
    · obtain ⟨hnone, w', hw', hcw, hct⟩ := ih (i + 1) c h
      exact ⟨hnone, w', List.mem_cons_of_mem w hw', hcw, hct⟩

lemma parentList_map_id (decode : List Nat → List Char) :
    ∀ (ws : List (List Nat)) (i : Nat),
      (parentList decode i ws).map (fun c => c.id) = List.range' i ws.length := by
  intro ws
  induction ws with
  | nil => intro i; rfl
  | cons w rest ih =>
    intro i
    rw [parentList, List.map_cons, ih (i + 1)]
    simp [List.length_cons, List.range'_succ]

lemma parentList_length (decode : List Nat → List Char) :
    ∀ (ws : List (List Nat)) (i : Nat),
      (parentList decode i ws).length = ws.length := by
  intro ws
  induction ws with
  | nil => intro i; rfl
  | cons w rest ih => intro i; rw [parentList]; simp [ih (i + 1)]

lemma childList_parent (decode : List Nat → List Char) (parentId : Nat) :
    ∀ (ws : List (List Nat)) (basePos nid : Nat),
      ∀ c ∈ childList decode parentId basePos nid ws,
        c.parent = some parentId := by
  intro ws
  induction ws with
  | nil => intro basePos nid c hc; simp [childList] at hc
  | cons w rest ih =>
    intro basePos nid c hc
    rw [childList] at hc
    rcases List.mem_cons.mp hc with h | h
    · subst h; rfl
    · exact ih (basePos + 1) (nid + 1) c h

lemma childList_map_pos (decode : List Nat → List Char) (parentId : Nat) :
    ∀ (ws : List (List Nat)) (basePos nid : Nat),
      (childList decode parentId basePos nid ws).map (fun c => c.position) =
        List.range' basePos ws.length := by
  intro ws
  induction ws with
  | nil => intro basePos nid; rfl
  | cons w rest ih =>
    intro basePos nid
    rw [childList, List.map_cons, ih (basePos + 1) (nid + 1)]
    simp [List.length_cons, List.range'_succ]

lemma childChunks_spec (encode : List Char → List Nat)
    (decode : List Nat → List Char) (childSize : Nat) (hcs : 0 < childSize)
    (parent : HChunk) (basePos nid : Nat) :
    ∃ cs, childChunks encode decode childSize parent basePos nid = some cs ∧
      (∀ c ∈ cs, c.parent = some parent.id) ∧
      (cs.map (fun c => c.position) = List.range' basePos cs.length) ∧
      (cs ≠ [] → childSize < (encode parent.content).length) := by
  rw [childChunks]
  by_cases hsmall : (encode parent.content).length ≤ childSize
  · rw [if_pos hsmall]
    exact ⟨[], rfl, by intro c hc; simp at hc, rfl, by intro h; exact absurd rfl h⟩
  · rw [if_neg hsmall]
    obtain ⟨ws, hws⟩ := Option.isSome_iff_exists.mp
      (chunksOf?_isSome childSize hcs (encode parent.content))
    refine ⟨childList decode parent.id basePos nid ws, by rw [hws]; rfl,
      childList_parent decode parent.id ws basePos nid, ?_, fun _ => by omega⟩
    have hlen : (childList decode parent.id basePos nid ws).length = ws.length := by
      have := childList_map_pos decode parent.id ws basePos nid
      have hl := congrArg List.length this
      simpa using hl
    rw [childList_map_pos decode parent.id ws basePos nid, hlen]

lemma hierAssemble_spec (encode : List Char → List Nat)
    (decode : List Nat → List Char) (childSize maxDepth : Nat)
    (hcs : 0 < childSize) :
    ∀ (parents : List HChunk) (nextPos nid : Nat),
      (∀ p ∈ parents, p.parent = none ∧ (encode p.content).length = p.tokens) →
      ∃ out, hierAssemble encode decode childSize maxDepth parents nextPos nid
          = some out ∧
        (∀ c ∈ out,
          (c.parent = none ∧ ∃ p ∈ parents, p.id = c.id ∧ p.tokens = c.tokens) ∨
          (∃ pid, c.parent = some pid ∧
            ∃ p ∈ parents, p.id = pid ∧ childSize < p.tokens)) ∧
        (∀ p ∈ parents, ∃ c ∈ out, c.parent = none ∧ c.id = p.id) ∧
        (out.map (fun c => c.position) = List.range' nextPos out.length) ∧
        (¬ 1 < maxDepth → ∀ c ∈ out, c.parent = none) := by
  intro parents
  induction parents with
  | nil =>
    intro nextPos nid _
    exact ⟨[], rfl, by intro c hc; simp at hc, by intro p hp; simp at hp,
      rfl, by intro _ c hc; simp at hc⟩
  | cons parent rest ih =>
    intro nextPos nid hps
    have hhead := hps parent (List.mem_cons_self parent rest)
    by_cases hdepth : 1 < maxDepth
    · obtain ⟨cs, hcseq, hcsparent, hcspos, hcsbig⟩ :=
        childChunks_spec encode decode childSize hcs parent (nextPos + 1) nid
      obtain ⟨out', hout', hshape', hsurj', hpos', hnochild'⟩ :=
        ih (nextPos + 1 + cs.length) (nid + cs.length)
          (fun p hp => hps p (List.mem_cons_of_mem parent hp))
      refine ⟨{ parent with position := nextPos } :: (cs ++ out'), ?_, ?_, ?_, ?_, ?_⟩
      · rw [hierAssemble, if_pos hdepth, hcseq]
        simp only [Option.some_bind]
        rw [hout']
        rfl
      · intro c hc
        rcases List.mem_cons.mp hc with h | h
        · subst h
          exact Or.inl ⟨hhead.1, parent, List.mem_cons_self parent rest, rfl, rfl⟩
        · rcases List.mem_append.mp h with h | h
          · refine Or.inr ⟨parent.id, hcsparent c h, parent,
              List.mem_cons_self parent rest, rfl, ?_⟩
            have := hcsbig (by intro hnil; rw [hnil] at h; simp at h)
            omega
          · rcases hshape' c h with ⟨hn, p, hp, hids⟩ | ⟨pid, hcp, p, hp, hids⟩
            · exact Or.inl ⟨hn, p, List.mem_cons_of_mem parent hp, hids⟩
            · exact Or.inr ⟨pid, hcp, p, List.mem_cons_of_mem parent hp, hids⟩
      · intro p hp
        rcases List.mem_cons.mp hp with h | h
        · refine ⟨{ parent with position := nextPos },
            List.mem_cons_self _ _, hhead.1, ?_⟩
          rw [h]
        · obtain ⟨c, hc, hcn, hcid⟩ := hsurj' p h
          exact ⟨c, List.mem_cons_of_mem _ (List.mem_append_right cs hc), hcn, hcid⟩
      · have hcat := List.range'_append (nextPos + 1) cs.length out'.length 1
        rw [show nextPos + 1 + 1 * cs.length = nextPos + 1 + cs.length from by
            omega,
          show out'.length + cs.length = cs.length + out'.length from by
            omega] at hcat
        rw [List.map_cons, List.map_append, hcspos, hpos', hcat,
          List.length_cons, List.length_append, List.range'_succ]
      · intro h; exact absurd hdepth h
    · obtain ⟨out', hout', hshape', hsurj', hpos', hnochild'⟩ :=
        ih (nextPos + 1) nid
          (fun p hp => hps p (List.mem_cons_of_mem parent hp))
      refine ⟨{ parent with position := nextPos } :: out', ?_, ?_, ?_, ?_, ?_⟩
      · rw [hierAssemble, if_neg hdepth, hout']
        rfl
      · intro c hc
        rcases List.mem_cons.mp hc with h | h
        · subst h
          exact Or.inl ⟨hhead.1, parent, List.mem_cons_self parent rest, rfl, rfl⟩
        · rcases hshape' c h with ⟨hn, p, hp, hids⟩ | ⟨pid, hcp, p, hp, hids⟩
          · exact Or.inl ⟨hn, p, List.mem_cons_of_mem parent hp, hids⟩
          · exact Or.inr ⟨pid, hcp, p, List.mem_cons_of_mem parent hp, hids⟩
      · intro p hp
        rcases List.mem_cons.mp hp with h | h
        · refine ⟨{ parent with position := nextPos },
            List.mem_cons_self _ _, hhead.1, ?_⟩
          rw [h]
        · obtain ⟨c, hc, hcn, hcid⟩ := hsurj' p h
          exact ⟨c, List.mem_cons_of_mem _ hc, hcn, hcid⟩
      · rw [List.map_cons, hpos', List.length_cons, List.range'_succ]
      · intro _ c hc
        rcases List.mem_cons.mp hc with h | h
        · subst h; exact hhead.1
        · exact hnochild' hdepth c h

lemma parentChunks_spec (encode : List Char → List Nat)
    (decode : List Nat → List Char) (parentSize : Nat) (hps : 0 < parentSize)
    (hrt : ∀ ts : List Nat, encode (decode ts) = ts) (doc : List Char) :
    ∃ parents, parentChunks encode decode parentSize doc = some parents ∧
      (∀ p ∈ parents, p.parent = none ∧
        (encode p.content).length = p.tokens) ∧
      (parents.map (fun c => c.id)).Nodup := by
  obtain ⟨ws, hws⟩ := Option.isSome_iff_exists.mp
    (chunksOf?_isSome parentSize hps (encode doc))
  refine ⟨parentList decode 0 ws, by rw [parentChunks, hws]; rfl, ?_, ?_⟩
  · intro p hp
    obtain ⟨hnone, w, _, hcw, hct⟩ := parentList_facts decode ws 0 p hp
    exact ⟨hnone, by rw [hcw, hrt w, hct]⟩
  · rw [parentList_map_id]
    exact List.nodup_range' 0 ws.length

/-- C7: for every document and configuration with positive parent/child
window sizes, assuming the tokenizer round-trip law
(`encode (decode ts) = ts`, §4.1 of the spec — `create_child_chunks`
re-encodes the decoded parent content): the run terminates; every child's
`parent_chunk_id` resolves to a parent chunk present in the same result
set; a parent at or under `child_chunk_size` tokens has no children at
all; children exist only when `max_depth > 1`; and positions are
reassigned sequentially `0, 1, 2, ...` over the whole output, which is
laid out parent, its children, next parent, ... . -/
theorem hierarchicalChunk_spec (encode : List Char → List Nat)
    (decode : List Nat → List Char) (parentSize childSize maxDepth : Nat)
    (doc : List Char) (hps : 0 < parentSize) (hcs : 0 < childSize)
    (hrt : ∀ ts : List Nat, encode (decode ts) = ts) :
    ∃ out, hierarchicalChunk encode decode parentSize childSize maxDepth doc
        = some out ∧
      (∀ c ∈ out, ∀ pid, c.parent = some pid →
        ∃ p ∈ out, p.parent = none ∧ p.id = pid) ∧
      (∀ p ∈ out, p.parent = none → p.tokens ≤ childSize →
        ∀ c ∈ out, c.parent ≠ some p.id) ∧
      (¬ 1 < maxDepth → ∀ c ∈ out, c.parent = none) ∧
      (∀ i, (h : i < out.length) → (out.get ⟨i, h⟩).position = i) := by
  obtain ⟨parents, hpar, hfacts, hnodup⟩ :=
    parentChunks_spec encode decode parentSize hps hrt doc
  obtain ⟨out, hout, hshape, hsurj, hpos, hnochild⟩ :=
    hierAssemble_spec encode decode childSize maxDepth hcs parents 0
      parents.length hfacts
  refine ⟨out, ?_, ?_, ?_, hnochild, ?_⟩
  · rw [hierarchicalChunk, hpar]
    simp only [Option.some_bind]
    exact hout
  · intro c hc pid hcp
    rcases hshape c hc with ⟨hn, _⟩ | ⟨pid', hcp', p, hp, hpid, _⟩
    · rw [hn] at hcp; cases hcp
    · rw [hcp'] at hcp
      injection hcp with hpe
      subst hpe
      obtain ⟨c', hc', hcn', hcid'⟩ := hsurj p hp
      exact ⟨c', hc', hcn', by rw [hcid', hpid]⟩
  · intro P hP hPn hPtok c hc hcp
    rcases hshape c hc with ⟨hn, _⟩ | ⟨pid, hcp', orig, horig, hoid, hotok⟩
    · rw [hn] at hcp; cases hcp
    · rw [hcp'] at hcp
      injection hcp with hpe
      rcases hshape P hP with ⟨_, p0, hp0, hp0id, hp0tok⟩ |
        ⟨pid2, hPp, _⟩
      · have : orig = p0 :=
          List.inj_on_of_nodup_map hnodup horig hp0 (by rw [hoid, hpe, hp0id])
        rw [this] at hotok
        omega
      · rw [hPn] at hPp; cases hPp
  · intro i h
    have hmap : (out.map (fun c => c.position)) = List.range' 0 out.length :=
      hpos
    have h2 : i < (out.map (fun c => c.position)).length := by simpa using h
    have e1 : (out.map (fun c => c.position))[i] = (out.get ⟨i, h⟩).position := by
      rw [List.getElem_map]
      rfl
    have h3 : i < (List.range' 0 out.length).length := by simpa using h
    have e2 : (List.range' 0 out.length)[i] = 0 + 1 * i :=
      List.getElem_range' i h3
    rw [← e1]
    simp only [hmap]
    rw [e2]
    omega

/-! A concrete tokenizer satisfying the round-trip law, for the witness:
tokens are unary-coded (`n` as `n` copies of `a` followed by `b`). -/

def unaryDecode (ts : List Nat) : List Char :=
  ts.flatMap (fun n => List.replicate n 'a' ++ ['b'])

def unaryEncodeGo : Nat → List Char → List Nat
  | _, [] => []
  | k, c :: rest =>
    if c = 'b' then k :: unaryEncodeGo 0 rest else unaryEncodeGo (k + 1) rest

def unaryEncode (cs : List Char) : List Nat := unaryEncodeGo 0 cs

lemma unaryEncodeGo_replicate (n : Nat) :
    ∀ (k : Nat) (rest : List Char),
      unaryEncodeGo k (List.replicate n 'a' ++ 'b' :: rest) =
        (k + n) :: unaryEncodeGo 0 rest := by
  induction n with
  | zero => intro k rest; simp [unaryEncodeGo]
  | succ n ih =>
    intro k rest
    rw [List.replicate_succ, List.cons_append, unaryEncodeGo]
    have hab : ('a' = 'b') = False := by simp
    rw [if_neg (by simp), ih (k + 1) rest]
    have : k + 1 + n = k + (n + 1) := by omega
    rw [this]

lemma unary_roundtrip : ∀ ts : List Nat, unaryEncode (unaryDecode ts) = ts := by
  intro ts
  induction ts with
  | nil => rfl
  | cons n rest ih =>
    rw [unaryDecode, List.flatMap_cons]
    rw [show (List.replicate n 'a' ++ ['b']) ++
        (rest.flatMap (fun m => List.replicate m 'a' ++ ['b'])) =
      List.replicate n 'a' ++
        ('b' :: rest.flatMap (fun m => List.replicate m 'a' ++ ['b'])) from by
      simp]
    rw [unaryEncode, unaryEncodeGo_replicate n 0 _]
    rw [show (0 + n) = n from by omega]
    rw [show unaryEncodeGo 0
        (rest.flatMap (fun m => List.replicate m 'a' ++ ['b'])) =
      unaryEncode (unaryDecode rest) from rfl, ih]

/-- Witness for `hierarchicalChunk_spec` at the unary tokenizer, parent
windows of 3 tokens, child windows of 2, depth 2. -/
theorem hierarchicalChunk_spec_witness :
    (0 : Nat) < 3 ∧ (0 : Nat) < 2 ∧
    ∃ out, hierarchicalChunk unaryEncode unaryDecode 3 2 2
        ("abbabbb".toList) = some out ∧
      (∀ c ∈ out, ∀ pid, c.parent = some pid →
        ∃ p ∈ out, p.parent = none ∧ p.id = pid) ∧
      (∀ p ∈ out, p.parent = none → p.tokens ≤ 2 →
        ∀ c ∈ out, c.parent ≠ some p.id) ∧
      (¬ 1 < 2 → ∀ c ∈ out, c.parent = none) ∧
      (∀ i, (h : i < out.length) → (out.get ⟨i, h⟩).position = i) :=
  ⟨by decide, by decide,
    hierarchicalChunk_spec unaryEncode unaryDecode 3 2 2 ("abbabbb".toList)
      (by decide) (by decide) unary_roundtrip⟩

/-! ## StructureAware chunker (chunking/structure_aware.rs)

`extract_structures` finds the fenced code blocks over the whole text with
the regex `(?s)```[\s\S]*?``` ` (leftmost opening fence, lazily matched to
the next closing fence, non-overlapping), emitting the text between
matches; the text after the last code block (`remaining`,
`&text[last_pos..]`) is then scanned for pipe-delimited tables with
`(?m)^\|.*\|$(\n\|.*\|$)*` — maximal runs of lines that start and end
with `|` — and the trailing text is emitted; finally the segments are
stable-sorted by their start offset.  `list_regex` is constructed but
never used by the extraction. -/

/-- The backtick character of a code fence. -/
def btick : Char := Char.ofNat 96

/-- Index of the leftmost occurrence of three consecutive backticks. -/
def idxTriple : List Char → Option Nat
  | c1 :: c2 :: c3 :: rest =>
    if c1 = btick ∧ c2 = btick ∧ c3 = btick then some 0
    else (idxTriple (c2 :: c3 :: rest)).map (· + 1)
  | _ => none

/-- `text[a..b]` as a list slice. -/
def sliceChars (cs : List Char) (a b : Nat) : List Char :=
  (cs.drop a).take (b - a)

/-- The successive non-overlapping matches of the code-block regex, as
`[start, stop)` spans: an opening fence matched lazily to the next
closing fence, resuming after the match. -/
def findCodeGo : Nat → List Char → Nat → List (Nat × Nat)
  | 0, _, _ => []
  | fuel + 1, cs, base =>
    match idxTriple cs with
    | none => []
    | some i =>
      match idxTriple (cs.drop (i + 3)) with
      | none => []
      | some j =>
        (base + i, base + i + 3 + j + 3) ::
          findCodeGo fuel (cs.drop (i + 3 + j + 3)) (base + i + 3 + j + 3)

/-- `code_block_regex.find_iter(text)` span list (each match consumes at
least 6 characters, so fuel `length + 1` never runs out). -/
def findCodeBlocks (cs : List Char) : List (Nat × Nat) :=
  findCodeGo (cs.length + 1) cs 0

/-- Split into lines at every `'\n'` (the separators are not kept). -/
def splitLinesKeep : List Char → List (List Char)
  | [] => [[]]
  | '\n' :: rest => [] :: splitLinesKeep rest
  | c :: rest =>
    match splitLinesKeep rest with
    | [] => [[c]]
    | l :: ls => (c :: l) :: ls

/-- A line matched by `^\|.*\|$`: starts and ends with `|`, at least two
characters. -/
def isPipeLine (l : List Char) : Bool :=
  decide (2 ≤ l.length ∧ l.head? = some '|' ∧ l.getLast? = some '|')

/-- Extend a table match over the following pipe lines; returns the match
end, the offset of the line after the run, and the remaining lines. -/
def tableRunEnd : Nat → List (List Char) → Nat × Nat × List (List Char)
  | e, [] => (e, e + 1, [])
  | e, l :: rest =>
    if isPipeLine l then tableRunEnd (e + 1 + l.length) rest
    else (e, e + 1, l :: rest)

/-- `table_regex.find_iter` span list over a line split, carrying the
running character offset of the current line. -/
def tableSpansGo : Nat → Nat → List (List Char) → List (Nat × Nat)
  | 0, _, _ => []
  | _ + 1, _, [] => []
  | fuel + 1, off, l :: rest =>
    if isPipeLine l then
      (off, (tableRunEnd (off + l.length) rest).1) ::
        tableSpansGo fuel (tableRunEnd (off + l.length) rest).2.1
          (tableRunEnd (off + l.length) rest).2.2
    else tableSpansGo fuel (off + l.length + 1) rest

/-- The table spans of a text (each span consumes at least one line). -/
def tableSpans (cs : List Char) : List (Nat × Nat) :=
  tableSpansGo ((splitLinesKeep cs).length + 1) 0 (splitLinesKeep cs)

/-- Segment classification (`SegmentType`; `List` is never produced by
`extract_structures`). -/
inductive SegKind
  | text
  | code
  | table
deriving DecidableEq, Repr

/-- A `TextSegment`: content, type, and document offsets. -/
structure Seg where
  content : List Char
  kind : SegKind
  s : Nat
  e : Nat
deriving DecidableEq, Repr

/-- One extraction pass (the code-block loop, or
`extract_tables_and_lists`): walks the spans found in the local text
`cs` (whose first character sits at document offset `off`), emitting the
text before each span and the span itself; `emitTail` adds the text after
the last span (`extract_tables_and_lists` does, the code-block loop does
not). -/
def segsBetween (cs : List Char) (off : Nat) (kind : SegKind)
    (emitTail : Bool) : Nat → List (Nat × Nat) → List Seg
  | lastPos, [] =>
    if emitTail ∧ lastPos < cs.length then
      [⟨cs.drop lastPos, SegKind.text, off + lastPos, off + cs.length⟩]
    else []
  | lastPos, (s, e) :: more =>
    (if lastPos < s then
      [⟨sliceChars cs lastPos s, SegKind.text, off + lastPos, off + s⟩]
     else []) ++
    ⟨sliceChars cs s e, kind, off + s, off + e⟩ ::
      segsBetween cs off kind emitTail e more

/-- `last_pos` after the code-block loop: the end of the last span. -/
def spansEnd (lastPos : Nat) : List (Nat × Nat) → Nat
  | [] => lastPos
  | (_, e) :: more => spansEnd e more

/-- The preserve flags of `ChunkingConfig` used by this strategy. -/
structure SAConfig where
  preserveCodeBlocks : Bool
  preserveTables : Bool
deriving DecidableEq, Repr

/-- `StructureAwareChunker::extract_structures`. -/
def extractStructures (cfg : SAConfig) (cs : List Char) : List Seg :=
  let segs1 :=
    if cfg.preserveCodeBlocks then
      segsBetween cs 0 SegKind.code false 0 (findCodeBlocks cs)
    else []
  let lastPos :=
    if cfg.preserveCodeBlocks then spansEnd 0 (findCodeBlocks cs) else 0
  let segs2 :=
    if lastPos < cs.length then
      if cfg.preserveTables then
        segsBetween (cs.drop lastPos) lastPos SegKind.table true 0
          (tableSpans (cs.drop lastPos))
      else [⟨cs.drop lastPos, SegKind.text, lastPos, cs.length⟩]
    else []
  (segs1 ++ segs2).mergeSort (fun a b => decide (a.s ≤ b.s))

/-- A chunk produced by `StructureAwareChunker::chunk`: content, token
count, and whether the metadata marks it `preserved: true` (a structural
segment emitted verbatim). -/
structure SAChunk where
  content : List Char
  tokens : Nat
  preserved : Bool
deriving DecidableEq, Repr

/-- Accumulator of the segment loop. -/
structure SAState where
  chunks : List SAChunk
  cur : List Char
  curTok : Nat
deriving DecidableEq, Repr

/-- The segment loop body (structure_aware.rs:164-229): a structural
segment flushes any accumulated text and becomes its own chunk verbatim
regardless of size; a text segment is accumulated, flushing on
`max_size` overflow, with a `'\n'` joiner. -/
def saStep (count : List Char → Nat) (maxSize : Nat) (st : SAState)
    (seg : Seg) : SAState :=
  match seg.kind with
  | SegKind.text =>
    if maxSize < st.curTok + count seg.content then
      ⟨st.chunks ++
        (if st.cur.isEmpty then [] else [⟨st.cur, st.curTok, false⟩]),
        seg.content, count seg.content⟩
    else
      ⟨st.chunks,
        if st.cur.isEmpty then seg.content else st.cur ++ '\n' :: seg.content,
        st.curTok + count seg.content⟩
  | _ =>
    ⟨(st.chunks ++
        (if st.cur.isEmpty then [] else [⟨st.cur, st.curTok, false⟩])) ++
      [⟨seg.content, count seg.content, true⟩], [], 0⟩

/-- `StructureAwareChunker::chunk`. -/
def structureAwareChunk (count : List Char → Nat) (maxSize : Nat)
    (cfg : SAConfig) (doc : List Char) : List SAChunk :=
  let st := (extractStructures cfg doc).foldl (saStep count maxSize) ⟨[], [], 0⟩
  if st.cur.isEmpty then st.chunks else st.chunks ++ [⟨st.cur, st.curTok, false⟩]

/-- Contents of the chunks whose metadata marks them preserved. -/
def preservedContents (cs : List SAChunk) : List (List Char) :=
  (cs.filter (fun c => c.preserved)).map (fun c => c.content)

/-- Contents of the structural (non-text) segments, in order. -/
def structuralContents (segs : List Seg) : List (List Char) :=
  (segs.filter (fun sg => decide (sg.kind ≠ SegKind.text))).map
    (fun sg => sg.content)

/-- Contents of the segments of one specific kind, in order. -/
def contentsOfKind (k : SegKind) (segs : List Seg) : List (List Char) :=
  (segs.filter (fun sg => decide (sg.kind = k))).map (fun sg => sg.content)

/-- The spans of a `find_iter` pass are ordered: each starts at or after
the scan position and ends no earlier than it starts. -/
def spansChain (lo : Nat) : List (Nat × Nat) → Prop
  | [] => True
  | (s, e) :: more => lo ≤ s ∧ s ≤ e ∧ spansChain e more

lemma spansChain_mono {lo lo' : Nat} (h : lo' ≤ lo) :
    ∀ {spans : List (Nat × Nat)}, spansChain lo spans → spansChain lo' spans := by
  intro spans
  cases spans with
  | nil => intro _; trivial
  | cons se more =>
    intro hc
    obtain ⟨h1, h2, h3⟩ := hc
    exact ⟨by omega, h2, h3⟩

lemma spansEnd_ge (spans : List (Nat × Nat)) :
    ∀ lo, spansChain lo spans → lo ≤ spansEnd lo spans := by
  induction spans with
  | nil => intro lo _; exact le_refl lo
  | cons se more ih =>
    intro lo hc
    obtain ⟨h1, h2, h3⟩ := hc
    rcases se with ⟨s, e⟩
    have := ih e h3
    show lo ≤ spansEnd e more
    omega

lemma findCodeGo_chain : ∀ (fuel : Nat) (cs : List Char) (base : Nat),
    spansChain base (findCodeGo fuel cs base) := by
  intro fuel
  induction fuel with
  | zero => intro cs base; trivial
  | succ fuel ih =>
    intro cs base
    rw [findCodeGo]
    split
    · exact trivial
    · split
      · exact trivial
      · exact ⟨by omega, by omega, ih _ _⟩

lemma tableRunEnd_facts : ∀ (ls : List (List Char)) (e : Nat),
    e ≤ (tableRunEnd e ls).1 ∧ (tableRunEnd e ls).2.1 = (tableRunEnd e ls).1 + 1 := by
  intro ls
  induction ls with
  | nil => intro e; exact ⟨le_refl e, rfl⟩
  | cons l rest ih =>
    intro e
    rw [tableRunEnd]
    by_cases hp : isPipeLine l
    · rw [if_pos hp]
      have := ih (e + 1 + l.length)
      exact ⟨by omega, this.2⟩
    · rw [if_neg hp]
      exact ⟨le_refl e, rfl⟩

lemma tableSpansGo_chain : ∀ (fuel : Nat) (lines : List (List Char)) (off : Nat),
    spansChain off (tableSpansGo fuel off lines) := by
  intro fuel
  induction fuel with
  | zero => intro lines off; trivial
  | succ fuel ih =>
    intro lines off
    cases lines with
    | nil => trivial
    | cons l rest =>
      rw [tableSpansGo]
      by_cases hp : isPipeLine l
      · rw [if_pos hp]
        have hfacts := tableRunEnd_facts rest (off + l.length)
        refine ⟨le_refl off, by omega, ?_⟩
        have hchain := ih (tableRunEnd (off + l.length) rest).2.2
          (tableRunEnd (off + l.length) rest).2.1
        exact spansChain_mono (by omega) hchain
      · rw [if_neg hp]
        exact spansChain_mono (by omega) (ih rest (off + l.length + 1))

lemma segsBetween_facts (cs : List Char) (off : Nat) (kind : SegKind)
    (emitTail : Bool) (hk : kind ≠ SegKind.text) :
    ∀ (spans : List (Nat × Nat)) (lastPos : Nat), spansChain lastPos spans →
      (∀ sg ∈ segsBetween cs off kind emitTail lastPos spans,
        off + lastPos ≤ sg.s) ∧
      (emitTail = false →
        ∀ sg ∈ segsBetween cs off kind emitTail lastPos spans,
          sg.s ≤ off + spansEnd lastPos spans) ∧
      List.Pairwise (fun a b => a.s ≤ b.s)
        (segsBetween cs off kind emitTail lastPos spans) ∧
      (∀ sg ∈ segsBetween cs off kind emitTail lastPos spans,
        sg.kind = kind ∨ sg.kind = SegKind.text) ∧
      contentsOfKind kind (segsBetween cs off kind emitTail lastPos spans) =
        spans.map (fun se => sliceChars cs se.1 se.2) ∧
      structuralContents (segsBetween cs off kind emitTail lastPos spans) =
        spans.map (fun se => sliceChars cs se.1 se.2) := by
  intro spans
  induction spans with
  | nil =>
    intro lastPos _
    rw [segsBetween]
    by_cases htail : emitTail ∧ lastPos < cs.length
    · rw [if_pos htail]
      refine ⟨?_, ?_, ?_, ?_, ?_, ?_⟩
      · intro sg hsg
        rw [List.mem_singleton] at hsg
        subst hsg
        exact le_refl _
      · intro hfalse
        rw [hfalse] at htail
        simp at htail
      · exact List.pairwise_singleton _ _
      · intro sg hsg
        rw [List.mem_singleton] at hsg
        subst hsg
        exact Or.inr rfl
      · simp [contentsOfKind, List.filter_cons, Ne.symm hk]
      · simp [structuralContents, List.filter_cons]
    · rw [if_neg htail]
      exact ⟨by intro sg hsg; simp at hsg, by intro _ sg hsg; simp at hsg,
        List.Pairwise.nil, by intro sg hsg; simp at hsg, rfl, rfl⟩
  | cons se more ih =>
    rcases se with ⟨s, e⟩
    intro lastPos hchain
    obtain ⟨hlo, hse, hrest⟩ := hchain
    obtain ⟨ih1, ih2, ih3, ih4, ih5, ih6⟩ := ih e hrest
    have hendge : e ≤ spansEnd e more := spansEnd_ge more e hrest
    rw [segsBetween]
    by_cases hgap : lastPos < s
    · rw [if_pos hgap]
      refine ⟨?_, ?_, ?_, ?_, ?_, ?_⟩
      · intro sg hsg
        rcases List.mem_cons.mp hsg with h | h
        · subst h; exact le_refl _
        · rcases List.mem_cons.mp h with h | h
          · subst h
            show off + lastPos ≤ off + s
            omega
          · have := ih1 sg h; omega
      · intro htail
        intro sg hsg
        rcases List.mem_cons.mp hsg with h | h
        · subst h
          show off + lastPos ≤ off + spansEnd e more
          omega
        · rcases List.mem_cons.mp h with h | h
          · subst h
            show off + s ≤ off + spansEnd e more
            omega
          · exact ih2 htail sg h
      · refine List.pairwise_cons.mpr ⟨?_, List.pairwise_cons.mpr ⟨?_, ih3⟩⟩
        · intro sg hsg
          rcases List.mem_cons.mp hsg with h | h
          · subst h
            show off + lastPos ≤ off + s
            omega
          · have := ih1 sg h
            show off + lastPos ≤ sg.s
            omega
        · intro sg hsg
          have := ih1 sg hsg
          show off + s ≤ sg.s
          omega
      · intro sg hsg
        rcases List.mem_cons.mp hsg with h | h
        · subst h; exact Or.inr rfl
        · rcases List.mem_cons.mp h with h | h
          · subst h; exact Or.inl rfl
          · exact ih4 sg h
      · simp only [contentsOfKind] at ih5 ⊢
        simp only [List.singleton_append, List.filter_cons]
        simp [Ne.symm hk, ih5]
      · simp only [structuralContents] at ih6 ⊢
        simp only [List.singleton_append, List.filter_cons]
        simp only [decide_not] at ih6 ⊢
        simp [hk, ih6]
    · rw [if_neg hgap]
      simp only [List.nil_append]
      refine ⟨?_, ?_, ?_, ?_, ?_, ?_⟩
      · intro sg hsg
        rcases List.mem_cons.mp hsg with h | h
        · subst h
          show off + lastPos ≤ off + s
          omega
        · have := ih1 sg h; omega
      · intro htail sg hsg
        rcases List.mem_cons.mp hsg with h | h
        · subst h
          show off + s ≤ off + spansEnd e more
          omega
        · exact ih2 htail sg h
      · refine List.pairwise_cons.mpr ⟨?_, ih3⟩
        intro sg hsg
        have := ih1 sg hsg
        show off + s ≤ sg.s
        omega
      · intro sg hsg
        rcases List.mem_cons.mp hsg with h | h
        · subst h; exact Or.inl rfl
        · exact ih4 sg h
      · simp only [contentsOfKind] at ih5 ⊢
        simp only [List.filter_cons]
        simp [ih5]
      · simp only [structuralContents] at ih6 ⊢
        simp only [List.filter_cons]
        simp only [decide_not] at ih6 ⊢
        simp [hk, ih6]

lemma contentsOfKind_append (k : SegKind) (l1 l2 : List Seg) :
    contentsOfKind k (l1 ++ l2) = contentsOfKind k l1 ++ contentsOfKind k l2 := by
  simp [contentsOfKind, List.filter_append]

lemma contentsOfKind_eq_nil_of_kinds (k : SegKind) (l : List Seg)
    (h : ∀ sg ∈ l, sg.kind ≠ k) : contentsOfKind k l = [] := by
  rw [contentsOfKind, List.filter_eq_nil_iff.mpr]
  · rfl
  · intro sg hsg
    simpa using h sg hsg

lemma extractStructures_eq (cfg : SAConfig) (hcode : cfg.preserveCodeBlocks = true)
    (htab : cfg.preserveTables = true) (cs : List Char) :
    extractStructures cfg cs =
      segsBetween cs 0 SegKind.code false 0 (findCodeBlocks cs) ++
        (if spansEnd 0 (findCodeBlocks cs) < cs.length then
          segsBetween (cs.drop (spansEnd 0 (findCodeBlocks cs)))
            (spansEnd 0 (findCodeBlocks cs)) SegKind.table true 0
            (tableSpans (cs.drop (spansEnd 0 (findCodeBlocks cs))))
        else []) := by
  have hcodeFacts := segsBetween_facts cs 0 SegKind.code false (by simp)
    (findCodeBlocks cs) 0 (findCodeGo_chain (cs.length + 1) cs 0)
  have hsorted : List.Pairwise (fun a b : Seg => a.s ≤ b.s)
      (segsBetween cs 0 SegKind.code false 0 (findCodeBlocks cs) ++
        (if spansEnd 0 (findCodeBlocks cs) < cs.length then
          segsBetween (cs.drop (spansEnd 0 (findCodeBlocks cs)))
            (spansEnd 0 (findCodeBlocks cs)) SegKind.table true 0
            (tableSpans (cs.drop (spansEnd 0 (findCodeBlocks cs))))
        else [])) := by
    rw [List.pairwise_append]
    refine ⟨hcodeFacts.2.2.1, ?_, ?_⟩
    · by_cases hrem : spansEnd 0 (findCodeBlocks cs) < cs.length
      · rw [if_pos hrem]
        exact (segsBetween_facts (cs.drop (spansEnd 0 (findCodeBlocks cs)))
          (spansEnd 0 (findCodeBlocks cs)) SegKind.table true (by simp)
          (tableSpans (cs.drop (spansEnd 0 (findCodeBlocks cs)))) 0
          (tableSpansGo_chain _ _ 0)).2.2.1
      · rw [if_neg hrem]
        exact List.Pairwise.nil
    · intro a ha b hb
      have ha' : a.s ≤ 0 + spansEnd 0 (findCodeBlocks cs) :=
        hcodeFacts.2.1 rfl a ha
      by_cases hrem : spansEnd 0 (findCodeBlocks cs) < cs.length
      · rw [if_pos hrem] at hb
        have hb' := (segsBetween_facts (cs.drop (spansEnd 0 (findCodeBlocks cs)))
          (spansEnd 0 (findCodeBlocks cs)) SegKind.table true (by simp)
          (tableSpans (cs.drop (spansEnd 0 (findCodeBlocks cs)))) 0
          (tableSpansGo_chain _ _ 0)).1 b hb
        omega
      · rw [if_neg hrem] at hb
        simp at hb
  have hunfold : extractStructures cfg cs =
      (segsBetween cs 0 SegKind.code false 0 (findCodeBlocks cs) ++
        (if spansEnd 0 (findCodeBlocks cs) < cs.length then
          segsBetween (cs.drop (spansEnd 0 (findCodeBlocks cs)))
            (spansEnd 0 (findCodeBlocks cs)) SegKind.table true 0
            (tableSpans (cs.drop (spansEnd 0 (findCodeBlocks cs))))
        else [])).mergeSort (fun a b => decide (a.s ≤ b.s)) := by
    rw [extractStructures]
    simp only [hcode, htab, if_true]
  rw [hunfold]
  exact List.mergeSort_of_sorted (hsorted.imp (fun h => by simpa using h))

/-- The structural content of `extract_structures` with the default
preserve flags: the code segments are exactly the code-block matches of
the whole text (verbatim slices, in order) and the table segments are
exactly the table matches of the remaining text after the last code
block. -/
lemma extractStructures_contents (cfg : SAConfig)
    (hcode : cfg.preserveCodeBlocks = true)
    (htab : cfg.preserveTables = true) (cs : List Char) :
    contentsOfKind SegKind.code (extractStructures cfg cs) =
      (findCodeBlocks cs).map (fun se => sliceChars cs se.1 se.2) ∧
    contentsOfKind SegKind.table (extractStructures cfg cs) =
      (tableSpans (cs.drop (spansEnd 0 (findCodeBlocks cs)))).map
        (fun se =>
          sliceChars (cs.drop (spansEnd 0 (findCodeBlocks cs))) se.1 se.2) := by
  have hcodeFacts := segsBetween_facts cs 0 SegKind.code false (by simp)
    (findCodeBlocks cs) 0 (findCodeGo_chain (cs.length + 1) cs 0)
  rw [extractStructures_eq cfg hcode htab cs]
  by_cases hrem : spansEnd 0 (findCodeBlocks cs) < cs.length
  · rw [if_pos hrem]
    have htabFacts := segsBetween_facts (cs.drop (spansEnd 0 (findCodeBlocks cs)))
      (spansEnd 0 (findCodeBlocks cs)) SegKind.table true (by simp)
      (tableSpans (cs.drop (spansEnd 0 (findCodeBlocks cs)))) 0
      (tableSpansGo_chain _ _ 0)
    constructor
    · rw [contentsOfKind_append, hcodeFacts.2.2.2.2.1,
        contentsOfKind_eq_nil_of_kinds _ _ (by
          intro sg hsg
          rcases htabFacts.2.2.2.1 sg hsg with h | h
          · rw [h]; simp
          · rw [h]; simp),
        List.append_nil]
    · rw [contentsOfKind_append,
        contentsOfKind_eq_nil_of_kinds _ _ (by
          intro sg hsg
          rcases hcodeFacts.2.2.2.1 sg hsg with h | h
          · rw [h]; simp
          · rw [h]; simp),
        htabFacts.2.2.2.2.1, List.nil_append]
  · rw [if_neg hrem]
    have hdrop : cs.drop (spansEnd 0 (findCodeBlocks cs)) = [] :=
      List.drop_eq_nil_of_le (by omega)
    constructor
    · rw [List.append_nil, hcodeFacts.2.2.2.2.1]
    · rw [List.append_nil, hdrop,
        contentsOfKind_eq_nil_of_kinds _ _ (by
          intro sg hsg
          rcases hcodeFacts.2.2.2.1 sg hsg with h | h
          · rw [h]; simp
          · rw [h]; simp)]
      rfl

lemma preservedContents_append (l1 l2 : List SAChunk) :
    preservedContents (l1 ++ l2) =
      preservedContents l1 ++ preservedContents l2 := by
  simp [preservedContents, List.filter_append]

lemma saStep_preservedContents (count : List Char → Nat) (maxSize : Nat)
    (st : SAState) (seg : Seg) :
    preservedContents ((saStep count maxSize st seg).chunks) =
      preservedContents st.chunks ++
        (match seg.kind with
         | SegKind.text => []
         | _ => [seg.content]) := by
  rcases seg with ⟨content, kind, s, e⟩
  cases kind with
  | text =>
    rw [saStep]
    by_cases hover : maxSize < st.curTok + count content
    · rw [if_pos hover]
      by_cases hcur : st.cur.isEmpty
      · simp [hcur, preservedContents_append, preservedContents]
      · simp [hcur, preservedContents_append, preservedContents]
    · rw [if_neg hover]
      simp [preservedContents]
  | code =>
    rw [saStep]
    by_cases hcur : st.cur.isEmpty
    · simp [hcur, preservedContents_append, preservedContents]
    · simp [hcur, preservedContents_append, preservedContents]
  | table =>
    rw [saStep]
    by_cases hcur : st.cur.isEmpty
    · simp [hcur, preservedContents_append, preservedContents]
    · simp [hcur, preservedContents_append, preservedContents]

lemma saFold_preservedContents (count : List Char → Nat) (maxSize : Nat) :
    ∀ (segs : List Seg) (st : SAState),
      preservedContents ((segs.foldl (saStep count maxSize) st).chunks) =
        preservedContents st.chunks ++ structuralContents segs := by
  intro segs
  induction segs with
  | nil => intro st; simp [structuralContents]
  | cons seg rest ihsegs =>
    intro st
    rw [List.foldl_cons, ihsegs, saStep_preservedContents]
    rcases seg with ⟨content, kind, s, e⟩
    cases kind with
    | text => simp [structuralContents, List.filter_cons]
    | code => simp [structuralContents, List.filter_cons]
    | table => simp [structuralContents, List.filter_cons]

/-- C8: with `preserve_code_blocks` and `preserve_tables` set (the
default), `StructureAwareChunker::chunk` emits, as the `preserved: true`
chunks and in document order, exactly the structural segments of
`extract_structures`: each extracted span is its own chunk, byte-for-byte,
regardless of size, and appears exactly once.  The extracted spans are
exactly the fenced-code-block matches over the whole input and the
pipe-delimited-table matches over the remaining text after the last code
block (the source scans tables only there). -/
theorem structureAwareChunk_spec (count : List Char → Nat) (maxSize : Nat)
    (cfg : SAConfig) (doc : List Char)
    (hcode : cfg.preserveCodeBlocks = true)
    (htab : cfg.preserveTables = true) :
    preservedContents (structureAwareChunk count maxSize cfg doc) =
      structuralContents (extractStructures cfg doc) ∧
    contentsOfKind SegKind.code (extractStructures cfg doc) =
      (findCodeBlocks doc).map (fun se => sliceChars doc se.1 se.2) ∧
    contentsOfKind SegKind.table (extractStructures cfg doc) =
      (tableSpans (doc.drop (spansEnd 0 (findCodeBlocks doc)))).map
        (fun se =>
          sliceChars (doc.drop (spansEnd 0 (findCodeBlocks doc))) se.1 se.2) := by
  have hcontents := extractStructures_contents cfg hcode htab doc
  refine ⟨?_, hcontents.1, hcontents.2⟩
  rw [structureAwareChunk]
  set st := (extractStructures cfg doc).foldl (saStep count maxSize) ⟨[], [], 0⟩
    with hst
  have hfold := saFold_preservedContents count maxSize
    (extractStructures cfg doc) ⟨[], [], 0⟩
  by_cases hcur : st.cur.isEmpty
  · rw [if_pos hcur]
    rw [← hst] at hfold
    rw [hfold]
    rfl
  · rw [if_neg hcur]
    rw [← hst] at hfold
    rw [preservedContents_append, hfold]
    simp [preservedContents]

/-- Witness for `structureAwareChunk_spec` at a concrete document holding
one fenced code block and one table. -/
theorem structureAwareChunk_spec_witness :
    preservedContents (structureAwareChunk List.length 100 ⟨true, true⟩
        ("Text.\n\n```c```\nmid\n|a|\n|b|\ntail".toList)) =
      structuralContents (extractStructures ⟨true, true⟩
        ("Text.\n\n```c```\nmid\n|a|\n|b|\ntail".toList)) ∧
    contentsOfKind SegKind.code (extractStructures ⟨true, true⟩
        ("Text.\n\n```c```\nmid\n|a|\n|b|\ntail".toList)) =
      (findCodeBlocks ("Text.\n\n```c```\nmid\n|a|\n|b|\ntail".toList)).map
        (fun se =>
          sliceChars ("Text.\n\n```c```\nmid\n|a|\n|b|\ntail".toList) se.1 se.2) ∧
    contentsOfKind SegKind.table (extractStructures ⟨true, true⟩
        ("Text.\n\n```c```\nmid\n|a|\n|b|\ntail".toList)) =
      (tableSpans (("Text.\n\n```c```\nmid\n|a|\n|b|\ntail".toList).drop
          (spansEnd 0
            (findCodeBlocks ("Text.\n\n```c```\nmid\n|a|\n|b|\ntail".toList))))).map
        (fun se =>
          sliceChars (("Text.\n\n```c```\nmid\n|a|\n|b|\ntail".toList).drop
            (spansEnd 0
              (findCodeBlocks
                ("Text.\n\n```c```\nmid\n|a|\n|b|\ntail".toList)))) se.1 se.2) :=
  structureAwareChunk_spec List.length 100 ⟨true, true⟩
    ("Text.\n\n```c```\nmid\n|a|\n|b|\ntail".toList) rfl rfl

end Shannon
